import Mathlib

/-!
A verification development for the `cnc` repository (a Hive community
dashboard written in TypeScript, plus a Maturity tournament engine).

The TypeScript sources are shallowly embedded below: each JavaScript
function that matters to the verified properties is translated into an
executable Lean definition that mirrors the source line by line.
JavaScript's `Array.prototype.sort` (stable since ES2019) is modelled by
`List.insertionSort le` with `le a b := comparator a b ≤ 0`, which produces
the unique stable order for a total preorder comparator.  JavaScript
objects used as string-keyed dictionaries are modelled either as insertion
ordered association lists or as total functions with the default value the
code observes for a missing key.  JavaScript numbers hold only integers in
this code base, so they are modelled by `Int` (or `Nat` for counts).
-/

/-! ## Color-assignment utility (src/unnamed/part_000, lib/colors)

Source:
```
const palette = ["#45b7d1", "#96ceb4", "#feca57", "#ff6f69", "#b39ddb"]
export const gray = "#ddd"
export function assignColors(items) {
  const map = {}
  for (const item of items) map[item] = palette[item.length % palette.length]
  return map
}
```
The returned object is modelled as the association list of the writes the
loop performs; a repeated item overwrites with the identical value, so the
association list faithfully represents every key's final value.
-/

def palette : List String :=
  ["#45b7d1", "#96ceb4", "#feca57", "#ff6f69", "#b39ddb"]

def gray : String := "#ddd"

def paletteAt (n : Nat) : String := palette.getD (n % palette.length) ""

def assignColors (items : List String) : List (String × String) :=
  items.map (fun item => (item, paletteAt item.length))

theorem paletteAt_mem (n : Nat) : paletteAt n ∈ palette := by
  have h : n % palette.length < palette.length := by
    exact Nat.mod_lt _ (by decide)
  simp only [paletteAt]
  rw [List.getD_eq_getElem _ _ h]
  exact List.getElem_mem h

theorem paletteAt_eq_of_mod_eq {m n : Nat} (h : m % 5 = n % 5) :
    paletteAt m = paletteAt n := by
  simp only [paletteAt, palette]
  norm_num
  rw [h]

/-- C8: `assignColors` is a pure function of each item's string length
modulo 5: any two item names whose lengths agree modulo 5 (in particular
any two of equal length) are mapped to the same palette color, the palette
has exactly 5 entries, every assigned color is one of them, and the
neutral gray constant `#ddd` is never assigned. -/
theorem assignColors_length_mod5_palette_no_gray :
    palette.length = 5 ∧
    (∀ items i₁ i₂ c₁ c₂, (i₁, c₁) ∈ assignColors items →
      (i₂, c₂) ∈ assignColors items → i₁.length % 5 = i₂.length % 5 → c₁ = c₂) ∧
    (∀ items i c, (i, c) ∈ assignColors items → c ∈ palette ∧ c ≠ gray) := by
  refine ⟨rfl, ?_, ?_⟩
  · intro items i₁ i₂ c₁ c₂ h₁ h₂ hlen
    simp only [assignColors, List.mem_map, Prod.mk.injEq] at h₁ h₂
    obtain ⟨a₁, -, rfl, rfl⟩ := h₁
    obtain ⟨a₂, -, rfl, rfl⟩ := h₂
    exact paletteAt_eq_of_mod_eq hlen
  · intro items i c h
    simp only [assignColors, List.mem_map, Prod.mk.injEq] at h
    obtain ⟨a, -, rfl, rfl⟩ := h
    refine ⟨paletteAt_mem _, ?_⟩
    have hmem := paletteAt_mem a.length
    intro hgray
    rw [hgray] at hmem
    simp [palette, gray] at hmem

/-- Witness for C8 at a concrete input: two names of equal length share a
color, the color is a palette entry and is not gray. -/
theorem assignColors_witness :
    palette.length = 5 ∧
    (("abc", paletteAt 3) ∈ assignColors ["abc", "xyz"] →
      ("xyz", paletteAt 3) ∈ assignColors ["abc", "xyz"] →
      "abc".length % 5 = "xyz".length % 5 → paletteAt 3 = paletteAt 3) ∧
    (("abc", paletteAt 3) ∈ assignColors ["abc", "xyz"] →
      paletteAt 3 ∈ palette ∧ paletteAt 3 ≠ gray) :=
  ⟨assignColors_length_mod5_palette_no_gray.1,
   fun h₁ h₂ h₃ =>
    assignColors_length_mod5_palette_no_gray.2.1 ["abc", "xyz"] "abc" "xyz" _ _ h₁ h₂ h₃,
   fun h₁ =>
    assignColors_length_mod5_palette_no_gray.2.2 ["abc", "xyz"] "abc" _ h₁⟩

/-! ## Hive domain types (src/lib/hiveData.ts) -/

structure WLD where
  wins : Nat
  losses : Nat
  draws : Nat
deriving DecidableEq, Repr

structure GameStats where
  player1 : String
  player2 : String
  rated_stats : WLD
  unrated_stats : WLD
deriving DecidableEq, Repr

structure Player where
  id : String
  display_name : String
  groups : List String
  hivegame_nick : String
  hivegame_nicks : List String
  is_known : Bool
  total_games : Nat
deriving DecidableEq, Repr

structure Config where
  group_order : List String
  highlight_games : List String
deriving DecidableEq, Repr

/-! ## Hive score-matrix view: player sorting (src/unnamed/part_006, HiveTable)

Source (inside `HiveTable`):
```
const sortedPlayers = [...players].sort((a, b) => {
  const groupOrder = config.group_order
  const aGroup = a.groups[0] || "(no-group)"
  const bGroup = b.groups[0] || "(no-group)"
  const aGroupPos = aGroup === "(outsider)" ? groupOrder.length : groupOrder.indexOf(aGroup)
  const bGroupPos = bGroup === "(outsider)" ? groupOrder.length : groupOrder.indexOf(bGroup)
  if (aGroupPos !== bGroupPos) return aGroupPos - bGroupPos
  return b.total_games - a.total_games
})
```
`Array.prototype.indexOf` returns `-1` when the element is absent, and
`a.groups[0] || "(no-group)"` falls back when `groups` is empty or its
first entry is the empty string (which is falsy in JavaScript).
-/

/-- JavaScript `Array.prototype.indexOf`: first index, or `-1` if absent. -/
def jsIndexOf : List String → String → Int
  | [], _ => -1
  | x :: xs, s =>
    if x = s then 0
    else if jsIndexOf xs s = -1 then -1 else jsIndexOf xs s + 1

/-- `p.groups[0] || "(no-group)"` (the empty string is falsy). -/
def primaryGroup (p : Player) : String :=
  let g := p.groups.headD ""
  if g = "" then "(no-group)" else g

/-- The comparator's group position of a player. -/
def groupPos (cfg : Config) (p : Player) : Int :=
  let g := primaryGroup p
  if g = "(outsider)" then (cfg.group_order.length : Int)
  else jsIndexOf cfg.group_order g

/-- `comparator(a, b) ≤ 0` for the HiveTable comparator. -/
def hiveLe (cfg : Config) (a b : Player) : Prop :=
  groupPos cfg a < groupPos cfg b ∨
    (groupPos cfg a = groupPos cfg b ∧ b.total_games ≤ a.total_games)

instance (cfg : Config) : DecidableRel (hiveLe cfg) := fun a b =>
  if h : groupPos cfg a < groupPos cfg b then isTrue (Or.inl h)
  else if h₂ : groupPos cfg a = groupPos cfg b ∧ b.total_games ≤ a.total_games then
    isTrue (Or.inr h₂)
  else isFalse (by
    intro hc
    rcases hc with hc | hc
    · exact h hc
    · exact h₂ hc)

instance (cfg : Config) : IsTotal Player (hiveLe cfg) :=
  ⟨fun a b => by
    unfold hiveLe
    rcases lt_trichotomy (groupPos cfg a) (groupPos cfg b) with h | h | h
    · exact Or.inl (Or.inl h)
    · rcases Nat.le_total b.total_games a.total_games with h' | h'
      · exact Or.inl (Or.inr ⟨h, h'⟩)
      · exact Or.inr (Or.inr ⟨h.symm, h'⟩)
    · exact Or.inr (Or.inl h)⟩

instance (cfg : Config) : IsTrans Player (hiveLe cfg) :=
  ⟨fun a b c hab hbc => by
    unfold hiveLe at *
    rcases hab with h₁ | ⟨h₁, g₁⟩ <;> rcases hbc with h₂ | ⟨h₂, g₂⟩
    · exact Or.inl (h₁.trans h₂)
    · exact Or.inl (h₂ ▸ h₁)
    · exact Or.inl (h₁ ▸ h₂)
    · exact Or.inr ⟨h₁.trans h₂, g₂.trans g₁⟩⟩

/-- The sorted player list of the HiveTable view (JavaScript's stable sort
modelled by stable insertion sort on the comparator's preorder). -/
def sortedPlayers (cfg : Config) (players : List Player) : List Player :=
  players.insertionSort (hiveLe cfg)


theorem jsIndexOf_eq_neg_one_or_nonneg (l : List String) (s : String) :
    jsIndexOf l s = -1 ∨ 0 ≤ jsIndexOf l s := by
  induction l with
  | nil => left; rfl
  | cons x xs ih =>
    by_cases hx : x = s
    · right; simp [jsIndexOf, hx]
    · by_cases hr : jsIndexOf xs s = -1
      · left; simp [jsIndexOf, hx, hr]
      · right
        simp only [jsIndexOf, if_neg hx, if_neg hr]
        rcases ih with h | h
        · exact absurd h hr
        · omega

theorem jsIndexOf_neg_one_iff (l : List String) (s : String) :
    jsIndexOf l s = -1 ↔ s ∉ l := by
  induction l with
  | nil => simp [jsIndexOf]
  | cons x xs ih =>
    by_cases hx : x = s
    · simp only [jsIndexOf, if_pos hx, List.mem_cons]
      constructor
      · intro h; exact absurd h (by norm_num)
      · intro h; exact absurd (Or.inl hx.symm) h
    · by_cases hr : jsIndexOf xs s = -1
      · simp [jsIndexOf, hx, hr, Ne.symm hx, ih.mp hr]
      · simp only [jsIndexOf, if_neg hx, if_neg hr, List.mem_cons]
        constructor
        · intro h
          rcases jsIndexOf_eq_neg_one_or_nonneg xs s with h' | h'
          · exact absurd h' hr
          · omega
        · intro h
          have : s ∈ xs := by
            by_contra hc
            exact hr (ih.mpr hc)
          exact absurd (Or.inr this) h

theorem jsIndexOf_lt_length (l : List String) (s : String) (h : s ∈ l) :
    jsIndexOf l s < (l.length : Int) := by
  induction l with
  | nil => simp at h
  | cons x xs ih =>
    by_cases hx : x = s
    · simp [jsIndexOf, hx]
    · have hmem : s ∈ xs := by
        rcases List.mem_cons.mp h with h' | h'
        · exact absurd h'.symm hx
        · exact h'
      have hr : jsIndexOf xs s ≠ -1 := by
        rw [Ne, jsIndexOf_neg_one_iff]
        simp [hmem]
      simp only [jsIndexOf, if_neg hx, if_neg hr, List.length_cons]
      have := ih hmem
      push_cast
      omega

theorem jsIndexOf_nonneg_of_mem (l : List String) (s : String) (h : s ∈ l) :
    0 ≤ jsIndexOf l s := by
  rcases jsIndexOf_eq_neg_one_or_nonneg l s with h' | h'
  · rw [jsIndexOf_neg_one_iff] at h'
    exact absurd h h'
  · exact h'

theorem groupPos_of_outsider (cfg : Config) (p : Player)
    (h : primaryGroup p = "(outsider)") :
    groupPos cfg p = (cfg.group_order.length : Int) := by
  simp [groupPos, h]

theorem groupPos_of_listed (cfg : Config) (p : Player)
    (hmem : primaryGroup p ∈ cfg.group_order) (hout : primaryGroup p ≠ "(outsider)") :
    0 ≤ groupPos cfg p ∧ groupPos cfg p < (cfg.group_order.length : Int) := by
  simp only [groupPos, if_neg hout]
  exact ⟨jsIndexOf_nonneg_of_mem _ _ hmem, jsIndexOf_lt_length _ _ hmem⟩

theorem groupPos_of_unlisted (cfg : Config) (p : Player)
    (hmem : primaryGroup p ∉ cfg.group_order) (hout : primaryGroup p ≠ "(outsider)") :
    groupPos cfg p = -1 := by
  simp only [groupPos, if_neg hout]
  exact (jsIndexOf_neg_one_iff _ _).mpr hmem

/-- C1 (amended): in the HiveTable view the player list is a permutation of
the input sorted so that (1) a player whose primary group is the synthetic
`(outsider)` group never precedes a player whose primary group is listed in
`config.group_order` (outsiders come after every listed group); (2) a player
whose primary group is listed never precedes a player whose primary group
is neither listed nor `(outsider)` — such players sort *before* every
listed group because `indexOf` yields `-1` for them; and (3) players whose
primary groups occupy the same group position appear in descending
`total_games` order. -/
theorem hiveTable_sort_order (cfg : Config) (players : List Player) :
    (sortedPlayers cfg players).Perm players ∧
    (sortedPlayers cfg players).Pairwise (fun a b =>
      (primaryGroup a = "(outsider)" → primaryGroup b ∈ cfg.group_order →
        primaryGroup b = "(outsider)") ∧
      (primaryGroup a ∈ cfg.group_order → primaryGroup a ≠ "(outsider)" →
        primaryGroup b ∉ cfg.group_order → primaryGroup b = "(outsider)") ∧
      (groupPos cfg a = groupPos cfg b → b.total_games ≤ a.total_games)) := by
  constructor
  · exact List.perm_insertionSort (hiveLe cfg) players
  · have hs : (sortedPlayers cfg players).Pairwise (hiveLe cfg) :=
      List.sorted_insertionSort (hiveLe cfg) players
    refine hs.imp ?_
    intro a b hab
    have hle : groupPos cfg a ≤ groupPos cfg b := by
      rcases hab with h | ⟨h, -⟩
      · exact le_of_lt h
      · exact le_of_eq h
    refine ⟨?_, ?_, ?_⟩
    · intro ha hbmem
      by_contra hbout
      have hpa := groupPos_of_outsider cfg a ha
      have hpb := groupPos_of_listed cfg b hbmem hbout
      omega
    · intro hamem haout hbmem
      by_contra hbout
      have hpa := groupPos_of_listed cfg a hamem haout
      have hpb := groupPos_of_unlisted cfg b hbmem hbout
      omega
    · intro heq
      rcases hab with h | ⟨-, h⟩
      · omega
      · exact h

/-- A config listing only the group `g`. -/
def cexConfig : Config := ⟨["g"], []⟩

/-- A known player whose primary group `g` is listed in `group_order`. -/
def cexListed : Player := ⟨"player#g1", "G1", ["g"], "HG#g1", ["HG#g1"], true, 0⟩

/-- A known player whose primary group `x` is not listed and is not
`(outsider)`. -/
def cexUnlisted : Player := ⟨"player#x1", "X1", ["x"], "HG#x1", ["HG#x1"], true, 0⟩

/-- Counterexample to C1 as stated: the player whose primary group `x` is
not listed in `group_order` (and is not `(outsider)`) is sorted *before*
the player whose primary group `g` is listed, because `indexOf` returns
`-1` for an unlisted group; the claim says every such player comes after
every listed player. -/
theorem hiveTable_sort_counterexample :
    sortedPlayers cexConfig [cexListed, cexUnlisted] = [cexUnlisted, cexListed] ∧
    primaryGroup cexUnlisted ∉ cexConfig.group_order ∧
    primaryGroup cexUnlisted ≠ "(outsider)" ∧
    primaryGroup cexListed ∈ cexConfig.group_order := by
  refine ⟨?_, by decide, by decide, by decide⟩
  decide

/-! ## Maturity data/logic engine (src/unnamed/part_001)

`MaturityMatchResult` as parsed by `loadMaturityData`; scores are integers
(`parseInt`), `result` is one of `"p1"`, `"p2"`, `"draw"`, and the raw
`date` cell is kept as a string (the parsed `Date` plays no role in the
verified properties).  The JavaScript dictionaries keyed by
`sortTuple([p1, p2]).flatten(" vs ")` are modelled as insertion-ordered
association lists, which is exactly the key order `Object.entries` and
`Object.values` iterate. -/

structure MaturityMatchResult where
  date : String
  player1 : String
  player2 : String
  result : String
  score1 : Int
  score2 : Int
deriving DecidableEq, Repr

structure MaturityPlayerStats where
  name : String
  wins : Nat
  losses : Nat
deriving DecidableEq, Repr

/-- JavaScript's `<` on strings: lexicographic comparison of the code
units, modelled on the code-point list of the Lean string. -/
def strLtB : List Char → List Char → Bool
  | [], [] => false
  | [], _ :: _ => true
  | _ :: _, [] => false
  | a :: as, b :: bs =>
    if a.val < b.val then true
    else if b.val < a.val then false
    else strLtB as bs

/-- `sortTuple([a, b]) = a < b ? [a, b] : [b, a]`. -/
def sortTuple (p : String × String) : String × String :=
  if strLtB p.1.data p.2.data then p else (p.2, p.1)

/-- The dictionary key `sortTuple([a, b]).flatten(" vs ")`. -/
def pairKey (a b : String) : String :=
  (sortTuple (a, b)).1 ++ " vs " ++ (sortTuple (a, b)).2

/-- One step of `matchDict[key].push(match)` (creating the key at the end
of the object's insertion order when absent). -/
def insertMatch :
    List (String × List MaturityMatchResult) → String → MaturityMatchResult →
      List (String × List MaturityMatchResult)
  | [], k, m => [(k, [m])]
  | (k', ms) :: rest, k, m =>
    if k' = k then (k', ms ++ [m]) :: rest else (k', ms) :: insertMatch rest k m

/-- The grouping-by-pair dictionary built by `generateMaturityTable` /
`generateMaturityData` / `d3GraphData`. -/
def buildMatchDict (results : List MaturityMatchResult) :
    List (String × List MaturityMatchResult) :=
  results.foldl (fun d m => insertMatch d (pairKey m.player1 m.player2) m) []

/-- `matchDict[key]` (`none` models `key in matchDict` being false). -/
def lookupDict :
    List (String × List MaturityMatchResult) → String →
      Option (List MaturityMatchResult)
  | [], _ => none
  | (k', ms) :: rest, k => if k' = k then some ms else lookupDict rest k

/-- `stats[p].wins++` on the `(wins, losses)` map. -/
def bumpWin (s : String → Nat × Nat) (p : String) : String → Nat × Nat :=
  fun x => if x = p then ((s p).1 + 1, (s p).2) else s x

/-- `stats[p].losses++` on the `(wins, losses)` map. -/
def bumpLoss (s : String → Nat × Nat) (p : String) : String → Nat × Nat :=
  fun x => if x = p then ((s p).1, (s p).2 + 1) else s x

/-- The per-match body of `calculateMaturityPlayerStats`'s scan: a decisive
match credits a win to the higher scorer and a loss to the other; a draw
changes nothing. -/
def tallyMatch (s : String → Nat × Nat) (m : MaturityMatchResult) :
    String → Nat × Nat :=
  if m.score2 < m.score1 then bumpLoss (bumpWin s m.player1) m.player2
  else if m.score1 < m.score2 then bumpWin (bumpLoss s m.player1) m.player2
  else s

def maturityTally (flat : List MaturityMatchResult) : String → Nat × Nat :=
  flat.foldl tallyMatch (fun _ => (0, 0))

/-- The keys of a JavaScript object in insertion order: duplicates keep the
first position (`stats[player] = …` re-runs for a repeated participant but
`Object.values` still yields one entry per key). -/
def dedupKeepFirst : List String → List String
  | [] => []
  | x :: xs => x :: dedupKeepFirst (xs.filter (fun y => y ≠ x))
termination_by l => l.length
decreasing_by
  simp only [List.length_cons]
  exact Nat.lt_succ_of_le (List.length_filter_le _ _)

/-- `comparator(a, b) ≤ 0` for the standings comparator
`(a, b) => a.wins ≠ b.wins ? b.wins - a.wins : a.losses ≠ b.losses ?
a.losses - b.losses : a.name.localeCompare(b.name)`; `localeCompare` is
modelled as lexicographic string order. -/
def maturityLe (a b : MaturityPlayerStats) : Prop :=
  b.wins < a.wins ∨
    (a.wins = b.wins ∧
      (a.losses < b.losses ∨ (a.losses = b.losses ∧ a.name ≤ b.name)))

instance : DecidableRel maturityLe := fun a b =>
  if h₁ : b.wins < a.wins then isTrue (Or.inl h₁)
  else if h₂ : a.wins = b.wins ∧
      (a.losses < b.losses ∨ (a.losses = b.losses ∧ a.name ≤ b.name)) then
    isTrue (Or.inr h₂)
  else isFalse (fun hc => hc.elim h₁ h₂)

instance : IsTotal MaturityPlayerStats maturityLe :=
  ⟨fun a b => by
    unfold maturityLe
    rcases lt_trichotomy a.wins b.wins with h | h | h
    · exact Or.inr (Or.inl h)
    · rcases lt_trichotomy a.losses b.losses with h' | h' | h'
      · exact Or.inl (Or.inr ⟨h, Or.inl h'⟩)
      · rcases le_total a.name b.name with h'' | h''
        · exact Or.inl (Or.inr ⟨h, Or.inr ⟨h', h''⟩⟩)
        · exact Or.inr (Or.inr ⟨h.symm, Or.inr ⟨h'.symm, h''⟩⟩)
      · exact Or.inr (Or.inr ⟨h.symm, Or.inl h'⟩)
    · exact Or.inl (Or.inl h)⟩

instance : IsTrans MaturityPlayerStats maturityLe :=
  ⟨fun a b c hab hbc => by
    unfold maturityLe at *
    rcases hab with h₁ | ⟨hw₁, h₁⟩
    · rcases hbc with h₂ | ⟨hw₂, h₂⟩
      · exact Or.inl (h₂.trans h₁)
      · exact Or.inl (hw₂ ▸ h₁)
    · rcases hbc with h₂ | ⟨hw₂, h₂⟩
      · exact Or.inl (hw₁ ▸ h₂)
      · refine Or.inr ⟨hw₁.trans hw₂, ?_⟩
        rcases h₁ with h₁ | ⟨hl₁, h₁⟩
        · rcases h₂ with h₂ | ⟨hl₂, h₂⟩
          · exact Or.inl (h₁.trans h₂)
          · exact Or.inl (hl₂ ▸ h₁)
        · rcases h₂ with h₂ | ⟨hl₂, h₂⟩
          · exact Or.inl (hl₁ ▸ h₂)
          · exact Or.inr ⟨hl₁.trans hl₂, h₁.trans h₂⟩⟩

/-- `calculateMaturityPlayerStats(matchDict, players)`: initialize a zeroed
entry per participant, scan every match of every pair list once, then sort
by the standings comparator (JavaScript's stable `sort`). -/
def calculateMaturityPlayerStats
    (matchDict : List (String × List MaturityMatchResult))
    (players : List String) : List MaturityPlayerStats :=
  let flat := (matchDict.map Prod.snd).flatten
  let t := maturityTally flat
  ((dedupKeepFirst players).map
    (fun p => MaturityPlayerStats.mk p (t p).1 (t p).2)).insertionSort maturityLe

/-- The predicate "this match is a win for `p`" (strict score comparison,
so a draw is a win for no one). -/
def winsMatch (p : String) (m : MaturityMatchResult) : Bool :=
  decide ((m.player1 = p ∧ m.score2 < m.score1) ∨ (m.player2 = p ∧ m.score1 < m.score2))

/-- The predicate "this match is a loss for `p`". -/
def losesMatch (p : String) (m : MaturityMatchResult) : Bool :=
  decide ((m.player1 = p ∧ m.score1 < m.score2) ∨ (m.player2 = p ∧ m.score2 < m.score1))

theorem bumpWin_fst (s : String → Nat × Nat) (p x : String) :
    (bumpWin s p x).1 = (s x).1 + (if x = p then 1 else 0) := by
  unfold bumpWin
  by_cases h : x = p <;> simp [h]

theorem bumpWin_snd (s : String → Nat × Nat) (p x : String) :
    (bumpWin s p x).2 = (s x).2 := by
  unfold bumpWin
  by_cases h : x = p <;> simp [h]

theorem bumpLoss_fst (s : String → Nat × Nat) (p x : String) :
    (bumpLoss s p x).1 = (s x).1 := by
  unfold bumpLoss
  by_cases h : x = p <;> simp [h]

theorem bumpLoss_snd (s : String → Nat × Nat) (p x : String) :
    (bumpLoss s p x).2 = (s x).2 + (if x = p then 1 else 0) := by
  unfold bumpLoss
  by_cases h : x = p <;> simp [h]

theorem tallyMatch_fst (f : String → Nat × Nat) (m : MaturityMatchResult)
    (p : String) :
    ((tallyMatch f m) p).1 = (f p).1 + (if winsMatch p m then 1 else 0) := by
  unfold tallyMatch
  rcases lt_trichotomy m.score2 m.score1 with h | h | h
  · rw [if_pos h, bumpLoss_fst, bumpWin_fst]
    simp [winsMatch, h, not_lt.mpr h.le, eq_comm]
  · rw [if_neg (by omega), if_neg (by omega)]
    simp [winsMatch, h, lt_irrefl]
  · rw [if_neg (by omega), if_pos h, bumpWin_fst, bumpLoss_fst]
    simp [winsMatch, h, not_lt.mpr h.le, eq_comm]

theorem tallyMatch_snd (f : String → Nat × Nat) (m : MaturityMatchResult)
    (p : String) :
    ((tallyMatch f m) p).2 = (f p).2 + (if losesMatch p m then 1 else 0) := by
  unfold tallyMatch
  rcases lt_trichotomy m.score2 m.score1 with h | h | h
  · rw [if_pos h, bumpLoss_snd, bumpWin_snd]
    simp [losesMatch, h, not_lt.mpr h.le, eq_comm]
  · rw [if_neg (by omega), if_neg (by omega)]
    simp [losesMatch, h, lt_irrefl]
  · rw [if_neg (by omega), if_pos h, bumpWin_snd, bumpLoss_snd]
    simp [losesMatch, h, not_lt.mpr h.le, eq_comm]

theorem foldl_tallyMatch_spec (flat : List MaturityMatchResult) :
    ∀ (f : String → Nat × Nat) (p : String),
      ((flat.foldl tallyMatch f) p).1 = (f p).1 + flat.countP (winsMatch p) ∧
      ((flat.foldl tallyMatch f) p).2 = (f p).2 + flat.countP (losesMatch p) := by
  induction flat with
  | nil => intro f p; simp
  | cons m rest ih =>
    intro f p
    have hrec := ih (tallyMatch f m) p
    simp only [List.foldl_cons, List.countP_cons]
    constructor
    · rw [hrec.1, tallyMatch_fst]
      by_cases hw : winsMatch p m <;> simp [hw] <;> omega
    · rw [hrec.2, tallyMatch_snd]
      by_cases hl : losesMatch p m <;> simp [hl] <;> omega

/-- C4: for every match dictionary and participant list (whose entries
cover the matches' players — otherwise the JavaScript original throws),
the standings returned by `calculateMaturityPlayerStats` are sorted by
most wins first, then (among equal wins) fewer losses first, then
alphabetically by name; and each entry's `wins`/`losses` count exactly the
matches that player decisively won/lost, so draws contribute to neither. -/
theorem calculateMaturityPlayerStats_sorted
    (matchDict : List (String × List MaturityMatchResult))
    (players : List String)
    (hcover : ∀ m ∈ (matchDict.map Prod.snd).flatten,
      m.player1 ∈ players ∧ m.player2 ∈ players) :
    (calculateMaturityPlayerStats matchDict players).Pairwise
      (fun a b => b.wins < a.wins ∨
        (a.wins = b.wins ∧
          (a.losses < b.losses ∨ (a.losses = b.losses ∧ a.name ≤ b.name)))) ∧
    (∀ e ∈ calculateMaturityPlayerStats matchDict players,
      e.wins = ((matchDict.map Prod.snd).flatten.countP (winsMatch e.name)) ∧
      e.losses = ((matchDict.map Prod.snd).flatten.countP (losesMatch e.name))) := by
  constructor
  · exact List.sorted_insertionSort maturityLe _
  · intro e he
    simp only [calculateMaturityPlayerStats] at he
    have hmem := (List.perm_insertionSort maturityLe
      ((dedupKeepFirst players).map
        (fun p => MaturityPlayerStats.mk p
          (maturityTally ((matchDict.map Prod.snd).flatten) p).1
          (maturityTally ((matchDict.map Prod.snd).flatten) p).2))).mem_iff.mp he
    simp only [List.mem_map] at hmem
    obtain ⟨p, -, rfl⟩ := hmem
    have hspec := foldl_tallyMatch_spec ((matchDict.map Prod.snd).flatten)
      (fun _ => (0, 0)) p
    simp only [maturityTally]
    exact ⟨by rw [hspec.1]; simp, by rw [hspec.2]; simp⟩

/-- Witness for C4 at a concrete input: A beats B (2–0), B draws C. -/
theorem calculateMaturityPlayerStats_witness :
    (calculateMaturityPlayerStats
        [("A vs B", [⟨"d", "A", "B", "p1", 2, 0⟩]),
         ("B vs C", [⟨"d", "B", "C", "draw", 1, 1⟩])]
        ["A", "B", "C"]).Pairwise
      (fun a b => b.wins < a.wins ∨
        (a.wins = b.wins ∧
          (a.losses < b.losses ∨ (a.losses = b.losses ∧ a.name ≤ b.name)))) ∧
    (∀ e ∈ calculateMaturityPlayerStats
        [("A vs B", [⟨"d", "A", "B", "p1", 2, 0⟩]),
         ("B vs C", [⟨"d", "B", "C", "draw", 1, 1⟩])]
        ["A", "B", "C"],
      e.wins = (([("A vs B", [(⟨"d", "A", "B", "p1", 2, 0⟩ : MaturityMatchResult)]),
         ("B vs C", [⟨"d", "B", "C", "draw", 1, 1⟩])].map Prod.snd).flatten.countP
          (winsMatch e.name)) ∧
      e.losses = (([("A vs B", [(⟨"d", "A", "B", "p1", 2, 0⟩ : MaturityMatchResult)]),
         ("B vs C", [⟨"d", "B", "C", "draw", 1, 1⟩])].map Prod.snd).flatten.countP
          (losesMatch e.name))) :=
  calculateMaturityPlayerStats_sorted
    [("A vs B", [⟨"d", "A", "B", "p1", 2, 0⟩]),
     ("B vs C", [⟨"d", "B", "C", "draw", 1, 1⟩])]
    ["A", "B", "C"]
    (by decide)

/-! ## Maturity HTML table cell classes (src/unnamed/part_001,
`generateMaturityTable`)

Source of the per-cell loop:
```
if (rowPlayer === colPlayer) {
  cellClass = "self-match-cell"
} else if (key in matchDict) {
  for (const match of matchDict[key]) {
    if (colPlayer === match.player1) { colPlayerScore = match.score1; rowPlayerScore = match.score2 }
    else { colPlayerScore = match.score2; rowPlayerScore = match.score1 }
    cellClass = rowPlayerScore > colPlayerScore ? "win-cell" : "loss-cell"
    ...
  }
}
```
`cellClass` is overwritten on every iteration, so the last match of the
pair's list alone determines the final class; the HTML string assembly
around it does not alter the class, so the class computation is embedded
on its own. -/

/-- The row player's score of a match, as the cell loop reads it. -/
def rowScoreOf (m : MaturityMatchResult) (colPlayer : String) : Int :=
  if colPlayer = m.player1 then m.score2 else m.score1

/-- The column player's score of a match, as the cell loop reads it. -/
def colScoreOf (m : MaturityMatchResult) (colPlayer : String) : Int :=
  if colPlayer = m.player1 then m.score1 else m.score2

/-- The CSS class `generateMaturityTable` assigns to the cell
`(rowPlayer, colPlayer)`. -/
def maturityCellClass (results : List MaturityMatchResult)
    (rowPlayer colPlayer : String) : String :=
  if rowPlayer = colPlayer then "self-match-cell"
  else
    match lookupDict (buildMatchDict results) (pairKey rowPlayer colPlayer) with
    | none => ""
    | some ms =>
      ms.foldl
        (fun _ m =>
          if colScoreOf m colPlayer < rowScoreOf m colPlayer then "win-cell"
          else "loss-cell") ""

theorem foldl_overwrite {α β : Type} (f : α → β) (l : List α) (a : α)
    (hl : l.getLast? = some a) :
    ∀ init : β, l.foldl (fun _ x => f x) init = f a := by
  induction l with
  | nil => simp at hl
  | cons x xs ih =>
    intro init
    rcases xs with _ | ⟨y, ys⟩
    · simp only [List.getLast?_singleton, Option.some.injEq] at hl
      simp [hl]
    · have htail : (y :: ys).getLast? = some a := by
        rw [← hl, List.getLast?_cons_cons]
      simp only [List.foldl_cons]
      exact ih htail (f x)

/-- C10: in the generated Maturity table, a non-self cell whose pair has at
least one recorded match is classed `win-cell` exactly when the row
player's score strictly exceeds the column player's score in the
last-iterated match of that pair, and `loss-cell` otherwise; in particular
a drawn last match (equal scores) yields `loss-cell`, and when several
matches exist only the last one determines the class. -/
theorem maturityCellClass_last_match_decides
    (results : List MaturityMatchResult) (rowPlayer colPlayer : String)
    (ms : List MaturityMatchResult) (lastM : MaturityMatchResult)
    (hne : rowPlayer ≠ colPlayer)
    (hms : lookupDict (buildMatchDict results) (pairKey rowPlayer colPlayer) = some ms)
    (hlast : ms.getLast? = some lastM) :
    maturityCellClass results rowPlayer colPlayer =
      (if colScoreOf lastM colPlayer < rowScoreOf lastM colPlayer then "win-cell"
       else "loss-cell") ∧
    (rowScoreOf lastM colPlayer = colScoreOf lastM colPlayer →
      maturityCellClass results rowPlayer colPlayer = "loss-cell") := by
  have hmain : maturityCellClass results rowPlayer colPlayer =
      (if colScoreOf lastM colPlayer < rowScoreOf lastM colPlayer then "win-cell"
       else "loss-cell") := by
    unfold maturityCellClass
    rw [if_neg hne, hms]
    exact foldl_overwrite
      (fun m =>
        if colScoreOf m colPlayer < rowScoreOf m colPlayer then "win-cell"
        else "loss-cell") ms lastM hlast ""
  refine ⟨hmain, fun hdraw => ?_⟩
  rw [hmain, if_neg (by omega)]

/-- Witness for C10 at a concrete input: A and B played twice, A won the
first match 2–0 and the second was drawn 1–1; the cell class for row A,
column B is decided by the drawn last match, hence `loss-cell`. -/
theorem maturityCellClass_witness :
    maturityCellClass
        [⟨"d1", "A", "B", "p1", 2, 0⟩, ⟨"d2", "A", "B", "draw", 1, 1⟩] "A" "B" =
      (if colScoreOf ⟨"d2", "A", "B", "draw", 1, 1⟩ "B" <
          rowScoreOf ⟨"d2", "A", "B", "draw", 1, 1⟩ "B" then "win-cell"
       else "loss-cell") ∧
    (rowScoreOf ⟨"d2", "A", "B", "draw", 1, 1⟩ "B" =
        colScoreOf ⟨"d2", "A", "B", "draw", 1, 1⟩ "B" →
      maturityCellClass
        [⟨"d1", "A", "B", "p1", 2, 0⟩, ⟨"d2", "A", "B", "draw", 1, 1⟩] "A" "B" =
        "loss-cell") :=
  maturityCellClass_last_match_decides
    [⟨"d1", "A", "B", "p1", 2, 0⟩, ⟨"d2", "A", "B", "draw", 1, 1⟩] "A" "B"
    [⟨"d1", "A", "B", "p1", 2, 0⟩, ⟨"d2", "A", "B", "draw", 1, 1⟩]
    ⟨"d2", "A", "B", "draw", 1, 1⟩
    (by decide) (by decide) (by decide)

/-! ## Maturity topological leveling (src/unnamed/part_001,
`pairingOutcomes` and `topologicalSortParticipants`)

`pairingOutcomes` groups matches by unordered pair and records one
`(winner, loser)` pair per decisive match.  Its JavaScript value is a
dictionary keyed like `matchDict`; `topologicalSortParticipants` only ever
iterates its `Object.entries` in order and in sequence, so the dictionary
is modelled by the flattened, insertion-ordered list of its directed
pairs.  The graph dictionaries `graph`/`inDegree` are modelled as total
functions with the initialisation value (`[]` / `0`) as default; the
original throws when an outcome names a participant that was never
initialised, so every theorem below assumes outcome endpoints lie in the
participant list. -/

def outcomeOf (m : MaturityMatchResult) : Option (String × String) :=
  if m.result = "p1" then some (m.player1, m.player2)
  else if m.result = "p2" then some (m.player2, m.player1)
  else none

def pairingOutcomes (results : List MaturityMatchResult) :
    List (String × String) :=
  (buildMatchDict results).bind (fun kv => kv.2.filterMap outcomeOf)

/-- Update of a JavaScript dictionary modelled as a total function. -/
def updF {α : Type} (f : String → α) (k : String) (v : α) : String → α :=
  fun x => if x = k then v else f x

/-- One outcome edge added to `(graph, inDegree)`:
```
if (!graph[winner].includes(loser)) { graph[winner].push(loser); inDegree[loser]++ }
``` -/
def addOutcome (acc : (String → List String) × (String → Int))
    (e : String × String) : (String → List String) × (String → Int) :=
  if e.2 ∈ acc.1 e.1 then acc
  else (updF acc.1 e.1 (acc.1 e.1 ++ [e.2]), updF acc.2 e.2 (acc.2 e.2 + 1))

def buildGD (outcomes : List (String × String)) :
    (String → List String) × (String → Int) :=
  outcomes.foldl addOutcome (fun _ => [], fun _ => 0)

/-- `inDegree[beaten]--; if (inDegree[beaten] === 0) queue.push(beaten)`. -/
def stepBeaten (acc : (String → Int) × List String) (b : String) :
    (String → Int) × List String :=
  let v := acc.1 b - 1
  (updF acc.1 b v, if v = 0 then acc.2 ++ [b] else acc.2)

def processNode (g : String → List String)
    (acc : (String → Int) × List String) (cur : String) :
    (String → Int) × List String :=
  (g cur).foldl stepBeaten acc

/-- One iteration of the `while` loop: the whole current queue becomes one
level (its length is captured before any pushes), and the nodes pushed
while draining it form the next queue. -/
def processLevel (g : String → List String) (d : String → Int)
    (queue : List String) : (String → Int) × List String :=
  queue.foldl (processNode g) (d, [])

/-- The `while (queue.length > 0)` loop.  The fuel argument bounds the
number of levels; each level emits at least one node and no node is ever
enqueued twice, so `participants.length` levels always suffice, and every
property proved below is established for every fuel value. -/
def kahnLevels (g : String → List String) :
    Nat → (String → Int) → List String → List (List String)
  | 0, _, _ => []
  | fuel + 1, d, queue =>
    if queue = [] then []
    else queue :: kahnLevels g fuel (processLevel g d queue).1 (processLevel g d queue).2

def topologicalSortParticipants (outcomes : List (String × String))
    (participants : List String) : List (List String) :=
  let gd := buildGD outcomes
  kahnLevels gd.1 participants.length gd.2
    (participants.filter (fun p => decide (gd.2 p = 0)))

theorem buildGD_adj_aux (l : List (String × String)) :
    ∀ (acc : (String → List String) × (String → Int)) (w y : String),
      y ∈ (l.foldl addOutcome acc).1 w ↔ (y ∈ acc.1 w ∨ (w, y) ∈ l) := by
  induction l with
  | nil => intro acc w y; simp
  | cons e l ih =>
    obtain ⟨a, b⟩ := e
    intro acc w y
    rw [List.foldl_cons, ih]
    by_cases hmem : b ∈ acc.1 a <;> by_cases hw : w = a
    · subst hw
      simp [addOutcome, updF, hmem, Prod.mk.injEq]
      constructor
      · rintro (h | h)
        · exact Or.inl h
        · exact Or.inr (Or.inr h)
      · rintro (h | ⟨rfl, rfl⟩ | h)
        · exact Or.inl h
        · exact Or.inl hmem
        · exact Or.inr h
    · simp [addOutcome, updF, hmem, hw, Prod.mk.injEq]
    · subst hw
      simp [addOutcome, updF, hmem, Prod.mk.injEq]
      constructor
      · rintro ((h | h) | h)
        · exact Or.inl h
        · exact Or.inr (Or.inl h)
        · exact Or.inr (Or.inr h)
      · rintro (h | h | h)
        · exact Or.inl (Or.inl h)
        · exact Or.inl (Or.inr h)
        · exact Or.inr h
    · simp [addOutcome, updF, hmem, hw, Prod.mk.injEq]

/-- The final adjacency of the built graph holds exactly the outcome
edges. -/
theorem buildGD_adj (outcomes : List (String × String)) (w y : String) :
    y ∈ (buildGD outcomes).1 w ↔ (w, y) ∈ outcomes := by
  unfold buildGD
  rw [buildGD_adj_aux]
  simp

theorem buildGD_deg_zero_aux (l : List (String × String)) :
    ∀ (acc : (String → List String) × (String → Int)) (p : String),
      (∀ e ∈ l, e.2 ≠ p) → acc.2 p = 0 → (l.foldl addOutcome acc).2 p = 0 := by
  induction l with
  | nil => intro acc p _ h0; simpa using h0
  | cons e l ih =>
    intro acc p hne h0
    rw [List.foldl_cons]
    refine ih _ p (fun e' he' => hne e' (List.mem_cons_of_mem _ he')) ?_
    unfold addOutcome updF
    by_cases hmem : e.2 ∈ acc.1 e.1
    · rw [if_pos hmem]; exact h0
    · rw [if_neg hmem]
      simp only
      rw [if_neg (Ne.symm (hne e (List.mem_cons_self _ _)))]
      exact h0

/-- A participant never named as a loser has in-degree 0 in the built
graph. -/
theorem buildGD_deg_zero (outcomes : List (String × String)) (p : String)
    (h : ∀ e ∈ outcomes, e.2 ≠ p) : (buildGD outcomes).2 p = 0 :=
  buildGD_deg_zero_aux outcomes _ p h rfl

theorem insertMatch_mem (acc₀ : List (String × List MaturityMatchResult)) :
    ∀ (k : String) (mm m₀ : MaturityMatchResult)
      (kv₀ : String × List MaturityMatchResult),
      kv₀ ∈ insertMatch acc₀ k mm → m₀ ∈ kv₀.2 →
      m₀ = mm ∨ ∃ kv₁ ∈ acc₀, m₀ ∈ kv₁.2 := by
  induction acc₀ with
  | nil =>
    intro k mm m₀ kv₀ hkv₀ hm₀
    simp only [insertMatch, List.mem_singleton] at hkv₀
    subst hkv₀
    simp only [List.mem_singleton] at hm₀
    exact Or.inl hm₀
  | cons y ys ihy =>
    intro k mm m₀ kv₀ hkv₀ hm₀
    obtain ⟨ky, msy⟩ := y
    simp only [insertMatch] at hkv₀
    by_cases hk : ky = k
    · rw [if_pos hk] at hkv₀
      rcases List.mem_cons.mp hkv₀ with h | h
      · subst h
        simp only [List.mem_append, List.mem_singleton] at hm₀
        rcases hm₀ with h | h
        · exact Or.inr ⟨(ky, msy), List.mem_cons_self _ _, h⟩
        · exact Or.inl h
      · exact Or.inr ⟨kv₀, List.mem_cons_of_mem _ h, hm₀⟩
    · rw [if_neg hk] at hkv₀
      rcases List.mem_cons.mp hkv₀ with h | h
      · subst h
        exact Or.inr ⟨(ky, msy), List.mem_cons_self _ _, hm₀⟩
      · rcases ihy k mm m₀ kv₀ h hm₀ with h' | ⟨kv₁, hkv₁, hmm⟩
        · exact Or.inl h'
        · exact Or.inr ⟨kv₁, List.mem_cons_of_mem _ hkv₁, hmm⟩

theorem buildMatchDict_mem_aux (l : List MaturityMatchResult) :
    ∀ (acc : List (String × List MaturityMatchResult))
      (kv : String × List MaturityMatchResult),
      kv ∈ l.foldl (fun d mm => insertMatch d (pairKey mm.player1 mm.player2) mm) acc →
      ∀ m' ∈ kv.2, m' ∈ l ∨ ∃ kv' ∈ acc, m' ∈ kv'.2 := by
  induction l with
  | nil =>
    intro acc kv hkv m' hm'
    exact Or.inr ⟨kv, hkv, hm'⟩
  | cons x xs ih =>
    intro acc kv hkv m' hm'
    rw [List.foldl_cons] at hkv
    rcases ih _ kv hkv m' hm' with h | ⟨kv', hkv', hm''⟩
    · exact Or.inl (List.mem_cons_of_mem _ h)
    · rcases insertMatch_mem acc (pairKey x.player1 x.player2) x m' kv' hkv' hm'' with
        h | ⟨kv₁, hkv₁, hmm⟩
      · exact Or.inl (h ▸ List.mem_cons_self _ _)
      · exact Or.inr ⟨kv₁, hkv₁, hmm⟩

/-- Every directed pair produced by `pairingOutcomes` comes from a decisive
match of the input. -/
theorem pairingOutcomes_sound (results : List MaturityMatchResult) :
    ∀ e ∈ pairingOutcomes results, ∃ m ∈ results, outcomeOf m = some e := by
  intro e he
  unfold pairingOutcomes buildMatchDict at he
  rw [List.mem_bind] at he
  obtain ⟨kv, hkv, hme⟩ := he
  rw [List.mem_filterMap] at hme
  obtain ⟨m, hm, hout⟩ := hme
  rcases buildMatchDict_mem_aux results [] kv hkv m hm with h | ⟨kv', hkv', -⟩
  · exact ⟨m, h, hout⟩
  · simp at hkv'

/-- For exactly two matches the grouped dictionary flattens back to the
match order, whether or not the two matches concern the same pair. -/
theorem pairingOutcomes_two (m₁ m₂ : MaturityMatchResult) :
    pairingOutcomes [m₁, m₂] = [m₁, m₂].filterMap outcomeOf := by
  unfold pairingOutcomes buildMatchDict insertMatch
  by_cases h : pairKey m₁.player1 m₁.player2 = pairKey m₂.player1 m₂.player2 <;>
    simp [h, insertMatch, List.filterMap] <;>
      rcases outcomeOf m₁ with - | o₁ <;> rcases outcomeOf m₂ with - | o₂ <;> rfl

/-- Claim part (b): a participant involved in no decisive outcome is in
level 0. -/
theorem topSort_level0 (outcomes : List (String × String))
    (parts : List String) (p : String) (hp : p ∈ parts)
    (hnone : ∀ e ∈ outcomes, e.1 ≠ p ∧ e.2 ≠ p) :
    p ∈ (topologicalSortParticipants outcomes parts).headD [] := by
  unfold topologicalSortParticipants
  have hd0 : (buildGD outcomes).2 p = 0 :=
    buildGD_deg_zero outcomes p (fun e he => (hnone e he).2)
  have hq : p ∈ parts.filter (fun q => decide ((buildGD outcomes).2 q = 0)) := by
    rw [List.mem_filter]
    exact ⟨hp, by simp [hd0]⟩
  have hlen : ∃ n, parts.length = n + 1 := by
    cases parts with
    | nil => simp at hp
    | cons x xs => exact ⟨xs.length, rfl⟩
  obtain ⟨n, hn⟩ := hlen
  rw [hn]
  rw [kahnLevels]
  rw [if_neg (by
    intro hnil
    rw [hnil] at hq
    simp at hq)]
  simpa using hq

/-! ### Cycle participants are never emitted

The remaining in-degree of a node equals the number of its distinct
predecessors (within the participant list) not yet drained from the queue;
the development below tracks this count through `buildGD`, `processNode`,
`processLevel` and `kahnLevels` and concludes that every emitted node is
accessible along the "beats" edges, so a participant on a cycle is emitted
in no level. -/

/-- Number of predecessors of `x` (within `parts`) outside `S`. -/
def countNotIn (g : String → List String) (parts S : List String)
    (x : String) : Int :=
  (parts.countP (fun w => decide (x ∈ g w ∧ w ∉ S)) : Int)

/-- All predecessors of `x` lie in `S`. -/
def ready (g : String → List String) (S : List String) (x : String) : Prop :=
  ∀ w, x ∈ g w → w ∈ S

theorem ready_mono {g : String → List String} {S T : List String}
    (hsub : ∀ w ∈ S, w ∈ T) {x : String} (h : ready g S x) : ready g T x :=
  fun w hw => hsub w (h w hw)

theorem countP_congr_local (l : List String) (p q : String → Bool)
    (h : ∀ a ∈ l, p a = q a) : l.countP p = l.countP q := by
  induction l with
  | nil => simp
  | cons x xs ih =>
    rw [List.countP_cons, List.countP_cons, h x (List.mem_cons_self _ _),
      ih (fun a ha => h a (List.mem_cons_of_mem _ ha))]

theorem countP_and_ne (l : List String) (hnd : l.Nodup) (cur : String)
    (p : String → Bool) :
    ((l.countP (fun w => p w && decide (w ≠ cur)) : Int)) =
      (l.countP p : Int) - (if cur ∈ l ∧ p cur = true then 1 else 0) := by
  induction l with
  | nil => simp
  | cons x l' ih =>
    have hx : x ∉ l' := (List.nodup_cons.mp hnd).1
    have ih' := ih (List.nodup_cons.mp hnd).2
    rw [List.countP_cons, List.countP_cons]
    by_cases hxc : x = cur
    · subst hxc
      have hcongr : l'.countP (fun w => p w && decide (w ≠ x)) = l'.countP p :=
        countP_congr_local l' _ _ (fun a ha => by
          have hax : a ≠ x := fun h => hx (h ▸ ha)
          simp [hax])
      rw [hcongr]
      have h1 : (p x && decide (x ≠ x)) = false := by simp
      rw [h1]
      by_cases hp : p x = true
      · have hcond : x ∈ x :: l' ∧ p x = true := ⟨List.mem_cons_self _ _, hp⟩
        rw [if_pos hcond]
        simp only [hp, Bool.false_eq_true, if_false, if_true]
        push_cast
        omega
      · have hp' : p x = false := by
          cases hpx : p x
          · rfl
          · exact absurd hpx hp
        rw [if_neg (show ¬(x ∈ x :: l' ∧ p x = true) from fun hc => hp hc.2)]
        simp [hp']
    · have hcond : (cur ∈ x :: l' ∧ p cur = true) ↔ (cur ∈ l' ∧ p cur = true) := by
        constructor
        · rintro ⟨h₁, h₂⟩
          rcases List.mem_cons.mp h₁ with h | h
          · exact absurd h.symm hxc
          · exact ⟨h, h₂⟩
        · rintro ⟨h₁, h₂⟩
          exact ⟨List.mem_cons_of_mem _ h₁, h₂⟩
      have h1 : (p x && decide (x ≠ cur)) = p x := by simp [hxc]
      rw [h1, if_congr hcond rfl rfl]
      by_cases hc : cur ∈ l' ∧ p cur = true
      · rw [if_pos hc]
        rw [if_pos hc] at ih'
        have hge : 0 < l'.countP p := List.countP_pos_iff.mpr ⟨cur, hc.1, hc.2⟩
        by_cases hp : p x = true
        · simp only [hp, if_true]
          push_cast
          omega
        · have hp' : p x = false := by
            cases hpx : p x
            · rfl
            · exact absurd hpx hp
          simp only [hp', Bool.false_eq_true, if_false]
          push_cast
          omega
      · rw [if_neg hc]
        rw [if_neg hc] at ih'
        by_cases hp : p x = true
        · simp only [hp, if_true]
          push_cast
          omega
        · have hp' : p x = false := by
            cases hpx : p x
            · rfl
            · exact absurd hpx hp
          simp only [hp', Bool.false_eq_true, if_false]
          push_cast
          omega

theorem countNotIn_snoc (g : String → List String) (parts : List String)
    (hnd : parts.Nodup) (S : List String) (cur : String)
    (hcur : cur ∈ parts) (hcurS : cur ∉ S) (x : String) :
    countNotIn g parts (S ++ [cur]) x =
      countNotIn g parts S x - (if x ∈ g cur then 1 else 0) := by
  unfold countNotIn
  have hcongr : parts.countP (fun w => decide (x ∈ g w ∧ w ∉ S ++ [cur])) =
      parts.countP (fun w => decide (x ∈ g w ∧ w ∉ S) && decide (w ≠ cur)) :=
    countP_congr_local parts _ _ (fun w _ => by
      by_cases h₁ : x ∈ g w <;> by_cases h₂ : w ∈ S <;> by_cases h₃ : w = cur <;>
        simp [h₁, h₂, h₃, List.mem_append])
  rw [hcongr, countP_and_ne parts hnd cur _]
  have hcond : (cur ∈ parts ∧ decide (x ∈ g cur ∧ cur ∉ S) = true) ↔ x ∈ g cur := by
    constructor
    · rintro ⟨-, h⟩
      simp only [decide_eq_true_eq] at h
      exact h.1
    · intro h
      exact ⟨hcur, by simp [h, hcurS]⟩
  rw [if_congr hcond rfl rfl]

theorem countNotIn_eq_zero_iff (g : String → List String) (parts S : List String)
    (x : String) :
    countNotIn g parts S x = 0 ↔ ∀ w ∈ parts, x ∈ g w → w ∈ S := by
  unfold countNotIn
  constructor
  · intro h w hw hgw
    by_contra hS
    have hpos : 0 < parts.countP (fun w => decide (x ∈ g w ∧ w ∉ S)) :=
      List.countP_pos_iff.mpr ⟨w, hw, by simp [hgw, hS]⟩
    omega
  · intro h
    have hzero : parts.countP (fun w => decide (x ∈ g w ∧ w ∉ S)) = 0 := by
      rw [List.countP_eq_zero]
      intro w hw
      simp only [decide_eq_true_eq, not_and, not_not]
      intro hgw
      exact h w hw hgw
    rw [hzero]
    rfl

theorem countNotIn_nonneg (g : String → List String) (parts S : List String)
    (x : String) : 0 ≤ countNotIn g parts S x := by
  unfold countNotIn
  positivity

/-- With every edge source inside `parts`, zero remaining count means
`ready`. -/
theorem ready_of_count_zero {g : String → List String} {parts S : List String}
    (hedge : ∀ w x, x ∈ g w → w ∈ parts) {x : String}
    (h : countNotIn g parts S x = 0) : ready g S x := by
  intro w hw
  exact (countNotIn_eq_zero_iff g parts S x).mp h w (hedge w x hw) hw

theorem count_zero_of_ready {g : String → List String} {parts S : List String}
    {x : String} (h : ready g S x) : countNotIn g parts S x = 0 :=
  (countNotIn_eq_zero_iff g parts S x).mpr (fun w _ hgw => h w hgw)

theorem countP_flip_one (l : List String) (hnd : l.Nodup) (a : String)
    (ha : a ∈ l) (p q : String → Bool)
    (hq : ∀ w ∈ l, w ≠ a → q w = p w) (hqa : q a = true) (hpa : p a = false) :
    l.countP q = l.countP p + 1 := by
  induction l with
  | nil => simp at ha
  | cons x l' ih =>
    have hx : x ∉ l' := (List.nodup_cons.mp hnd).1
    have hnd' : l'.Nodup := (List.nodup_cons.mp hnd).2
    rw [List.countP_cons, List.countP_cons]
    by_cases hxa : x = a
    · subst hxa
      have hcongr : l'.countP q = l'.countP p :=
        countP_congr_local l' _ _ (fun w hw =>
          hq w (List.mem_cons_of_mem _ hw) (fun hwx => hx (hwx ▸ hw)))
      rw [hcongr, hqa, hpa]
      simp
    · have ha' : a ∈ l' := by
        rcases List.mem_cons.mp ha with h | h
        · exact absurd h.symm hxa
        · exact h
      have hqx : q x = p x := hq x (List.mem_cons_self _ _) hxa
      rw [hqx, ih hnd' ha' (fun w hw hwa => hq w (List.mem_cons_of_mem _ hw) hwa)]
      omega

theorem buildGD_nodup_aux (l : List (String × String)) :
    ∀ (acc : (String → List String) × (String → Int)),
      (∀ w, (acc.1 w).Nodup) → ∀ w, ((l.foldl addOutcome acc).1 w).Nodup := by
  induction l with
  | nil => intro acc h w; exact h w
  | cons e l ih =>
    intro acc h w
    rw [List.foldl_cons]
    refine ih _ ?_ w
    intro v
    unfold addOutcome updF
    by_cases hmem : e.2 ∈ acc.1 e.1
    · rw [if_pos hmem]
      exact h v
    · rw [if_neg hmem]
      simp only
      by_cases hv : v = e.1
      · rw [if_pos hv]
        rw [List.nodup_append]
        exact ⟨h e.1, List.nodup_singleton _, by
          intro a hamem hamem'
          rw [List.mem_singleton] at hamem'
          exact hmem (hamem' ▸ hamem)⟩
      · rw [if_neg hv]
        exact h v

theorem buildGD_nodup (outcomes : List (String × String)) (w : String) :
    ((buildGD outcomes).1 w).Nodup :=
  buildGD_nodup_aux outcomes _ (fun _ => List.nodup_nil) w

theorem buildGD_deg_count_aux (parts : List String) (hnd : parts.Nodup)
    (l : List (String × String)) :
    ∀ (acc : (String → List String) × (String → Int)),
      (∀ e ∈ l, e.1 ∈ parts) →
      (∀ x, acc.2 x = countNotIn acc.1 parts [] x) →
      ∀ x, (l.foldl addOutcome acc).2 x =
        countNotIn (l.foldl addOutcome acc).1 parts [] x := by
  induction l with
  | nil => intro acc _ h x; exact h x
  | cons e l ih =>
    intro acc hdom h x
    rw [List.foldl_cons]
    refine ih _ (fun e' he' => hdom e' (List.mem_cons_of_mem _ he')) ?_ x
    intro y
    unfold addOutcome
    by_cases hmem : e.2 ∈ acc.1 e.1
    · rw [if_pos hmem]
      exact h y
    · rw [if_neg hmem]
      obtain ⟨a, b⟩ := e
      simp only at hmem ⊢
      have ha : a ∈ parts := hdom (a, b) (List.mem_cons_self _ _)
      by_cases hy : y = b
      · subst hy
        unfold updF countNotIn
        rw [if_pos rfl]
        have hflip :
            parts.countP (fun w => decide
              (y ∈ (fun x => if x = a then acc.1 a ++ [y] else acc.1 x) w ∧ w ∉ ([] : List String))) =
            parts.countP (fun w => decide (y ∈ acc.1 w ∧ w ∉ ([] : List String))) + 1 := by
          refine countP_flip_one parts hnd a ha _ _ ?_ ?_ ?_
          · intro w hw hwa
            simp [hwa]
          · simp
          · simp [hmem]
        rw [hflip]
        have := h y
        unfold countNotIn at this
        rw [this]
        push_cast
        ring
      · unfold updF countNotIn
        rw [if_neg hy]
        have hcongr :
            parts.countP (fun w => decide
              (y ∈ (fun x => if x = a then acc.1 a ++ [b] else acc.1 x) w ∧ w ∉ ([] : List String))) =
            parts.countP (fun w => decide (y ∈ acc.1 w ∧ w ∉ ([] : List String))) := by
          refine countP_congr_local parts _ _ (fun w hw => ?_)
          by_cases hwa : w = a
          · subst hwa
            simp [List.mem_append, hy]
          · simp [hwa]
        rw [hcongr]
        have := h y
        unfold countNotIn at this
        rw [this]

/-- The initial in-degree map counts the distinct predecessors inside
`parts`. -/
theorem buildGD_deg_count (outcomes : List (String × String))
    (parts : List String) (hnd : parts.Nodup)
    (hdom : ∀ e ∈ outcomes, e.1 ∈ parts) (x : String) :
    (buildGD outcomes).2 x = countNotIn (buildGD outcomes).1 parts [] x := by
  unfold buildGD
  exact buildGD_deg_count_aux parts hnd outcomes _ hdom
    (fun y => by
      unfold countNotIn
      simp) x

theorem innerFold_spec (g : String → List String) (parts : List String)
    (Pp : List String) (cur : String) :
    ∀ (bs done : List String) (d : String → Int) (next : List String),
      g cur = done ++ bs → (g cur).Nodup →
      (∀ x, d x = countNotIn g parts Pp x - (if x ∈ done then 1 else 0)) →
      (∀ x ∈ next, ready g Pp x ∨ (x ∈ done ∧ countNotIn g parts Pp x = 1)) →
      next.Nodup →
      (∀ x, (bs.foldl stepBeaten (d, next)).1 x =
          countNotIn g parts Pp x - (if x ∈ done ++ bs then 1 else 0)) ∧
      (∀ x ∈ (bs.foldl stepBeaten (d, next)).2,
          ready g Pp x ∨ (x ∈ done ++ bs ∧ countNotIn g parts Pp x = 1)) ∧
      (∀ x ∈ (bs.foldl stepBeaten (d, next)).2,
          x ∈ next ∨ (x ∈ bs ∧ countNotIn g parts Pp x = 1)) ∧
      (bs.foldl stepBeaten (d, next)).2.Nodup ∧
      (∀ x ∈ next, x ∈ (bs.foldl stepBeaten (d, next)).2) := by
  intro bs
  induction bs with
  | nil =>
    intro done d next hsplit hnd hd hchar hnodup
    simp only [List.foldl_nil, List.append_nil]
    exact ⟨hd, fun x hx => (hchar x hx).imp id (fun ⟨h₁, h₂⟩ => ⟨h₁, h₂⟩),
      fun x hx => Or.inl hx, hnodup, fun x hx => hx⟩
  | cons b bs' ih =>
    intro done d next hsplit hnd hd hchar hnodup
    have hndsplit := hsplit ▸ hnd
    have hbdone : b ∉ done := by
      rw [List.nodup_append] at hndsplit
      intro hb
      exact hndsplit.2.2 hb (List.mem_cons_self _ _)
    have hdb : d b = countNotIn g parts Pp b - 0 := by
      rw [hd b, if_neg hbdone]
    have hsplit' : g cur = (done ++ [b]) ++ bs' := by
      rw [hsplit, List.append_assoc]
      rfl
    have hstep : stepBeaten (d, next) b =
        (updF d b (d b - 1), if d b - 1 = 0 then next ++ [b] else next) := rfl
    rw [List.foldl_cons, hstep]
    have hd' : ∀ x, (updF d b (d b - 1)) x =
        countNotIn g parts Pp x - (if x ∈ done ++ [b] then 1 else 0) := by
      intro x
      unfold updF
      by_cases hx : x = b
      · subst hx
        rw [if_pos rfl, if_pos (List.mem_append.mpr (Or.inr (List.mem_singleton_self _)))]
        omega
      · rw [if_neg hx, hd x]
        have : (x ∈ done ++ [b]) ↔ x ∈ done := by
          rw [List.mem_append, List.mem_singleton]
          exact ⟨fun h => h.resolve_right hx, Or.inl⟩
        rw [if_congr this rfl rfl]
    by_cases hpush : d b - 1 = 0
    · have hcount1 : countNotIn g parts Pp b = 1 := by omega
      rw [if_pos hpush]
      have hchar' : ∀ x ∈ next ++ [b],
          ready g Pp x ∨ (x ∈ done ++ [b] ∧ countNotIn g parts Pp x = 1) := by
        intro x hx
        rcases List.mem_append.mp hx with hx | hx
        · exact (hchar x hx).imp id
            (fun ⟨h₁, h₂⟩ => ⟨List.mem_append.mpr (Or.inl h₁), h₂⟩)
        · rw [List.mem_singleton] at hx
          subst hx
          exact Or.inr ⟨List.mem_append.mpr (Or.inr (List.mem_singleton_self _)), hcount1⟩
      have hbnext : b ∉ next := by
        intro hb
        rcases hchar b hb with h | h
        · have := @count_zero_of_ready _ parts _ _ h
          omega
        · exact hbdone h.1
      have hnodup' : (next ++ [b]).Nodup := by
        rw [List.nodup_append]
        exact ⟨hnodup, List.nodup_singleton _, by
          intro a ha ha'
          rw [List.mem_singleton] at ha'
          exact hbnext (ha' ▸ ha)⟩
      obtain ⟨r1, r2, r3, r4, r5⟩ :=
        ih (done ++ [b]) (updF d b (d b - 1)) (next ++ [b]) hsplit' hnd hd' hchar' hnodup'
      refine ⟨?_, ?_, ?_, r4, ?_⟩
      · intro x
        rw [r1 x]
        have : (x ∈ (done ++ [b]) ++ bs') ↔ x ∈ done ++ b :: bs' := by
          rw [List.append_assoc]
          rfl
        rw [if_congr this rfl rfl]
      · intro x hx
        rcases r2 x hx with h | ⟨h₁, h₂⟩
        · exact Or.inl h
        · refine Or.inr ⟨?_, h₂⟩
          rw [List.append_assoc] at h₁
          exact h₁
      · intro x hx
        rcases r3 x hx with h | ⟨h₁, h₂⟩
        · rcases List.mem_append.mp h with h' | h'
          · exact Or.inl h'
          · rw [List.mem_singleton] at h'
            subst h'
            exact Or.inr ⟨List.mem_cons_self _ _, hcount1⟩
        · exact Or.inr ⟨List.mem_cons_of_mem _ h₁, h₂⟩
      · intro x hx
        exact r5 x (List.mem_append.mpr (Or.inl hx))
    · rw [if_neg hpush]
      have hchar' : ∀ x ∈ next,
          ready g Pp x ∨ (x ∈ done ++ [b] ∧ countNotIn g parts Pp x = 1) :=
        fun x hx => (hchar x hx).imp id
          (fun ⟨h₁, h₂⟩ => ⟨List.mem_append.mpr (Or.inl h₁), h₂⟩)
      obtain ⟨r1, r2, r3, r4, r5⟩ :=
        ih (done ++ [b]) (updF d b (d b - 1)) next hsplit' hnd hd' hchar' hnodup
      refine ⟨?_, ?_, ?_, r4, r5⟩
      · intro x
        rw [r1 x]
        have : (x ∈ (done ++ [b]) ++ bs') ↔ x ∈ done ++ b :: bs' := by
          rw [List.append_assoc]
          rfl
        rw [if_congr this rfl rfl]
      · intro x hx
        rcases r2 x hx with h | ⟨h₁, h₂⟩
        · exact Or.inl h
        · refine Or.inr ⟨?_, h₂⟩
          rw [List.append_assoc] at h₁
          exact h₁
      · intro x hx
        rcases r3 x hx with h | ⟨h₁, h₂⟩
        · exact Or.inl h
        · exact Or.inr ⟨List.mem_cons_of_mem _ h₁, h₂⟩

theorem levelFold_spec (g : String → List String) (parts : List String)
    (hndparts : parts.Nodup)
    (hedge : ∀ w x, x ∈ g w → w ∈ parts)
    (hedge2 : ∀ w x, x ∈ g w → x ∈ parts)
    (hgnodup : ∀ w, (g w).Nodup) :
    ∀ (queue₂ Pp : List String) (d : String → Int) (next : List String),
      (∀ x, d x = countNotIn g parts Pp x) →
      (∀ x ∈ next, ready g Pp x) →
      next.Nodup →
      (Pp ++ queue₂).Nodup →
      (∀ x ∈ queue₂, x ∈ parts) →
      (∀ x, (queue₂.foldl (processNode g) (d, next)).1 x =
          countNotIn g parts (Pp ++ queue₂) x) ∧
      (∀ x ∈ (queue₂.foldl (processNode g) (d, next)).2,
          ready g (Pp ++ queue₂) x) ∧
      (queue₂.foldl (processNode g) (d, next)).2.Nodup ∧
      (∀ x ∈ (queue₂.foldl (processNode g) (d, next)).2,
          x ∈ next ∨ ¬ ready g Pp x) ∧
      (∀ x ∈ (queue₂.foldl (processNode g) (d, next)).2,
          x ∈ next ∨ x ∈ parts) := by
  intro queue₂
  induction queue₂ with
  | nil =>
    intro Pp d next h1 h2 h3 h4 h5
    simp only [List.foldl_nil, List.append_nil]
    exact ⟨h1, h2, h3, fun x hx => Or.inl hx, fun x hx => Or.inl hx⟩
  | cons cur rest ih =>
    intro Pp d next h1 h2 h3 h4 h5
    have hcurparts : cur ∈ parts := h5 cur (List.mem_cons_self _ _)
    have hcurPp : cur ∉ Pp := by
      rw [List.nodup_append] at h4
      intro hc
      exact h4.2.2 hc (List.mem_cons_self _ _)
    rw [List.foldl_cons]
    have hinner := innerFold_spec g parts Pp cur (g cur) [] d next rfl
      (hgnodup cur)
      (fun x => by rw [h1 x]; simp)
      (fun x hx => Or.inl (h2 x hx)) h3
    obtain ⟨r1, r2, r3, r4, r5⟩ := hinner
    have hpn : processNode g (d, next) cur = (g cur).foldl stepBeaten (d, next) := rfl
    rw [hpn]
    set d₁ := ((g cur).foldl stepBeaten (d, next)).1 with hd₁
    set next₁ := ((g cur).foldl stepBeaten (d, next)).2 with hnext₁
    have hsnoc := countNotIn_snoc g parts hndparts Pp cur hcurparts hcurPp
    have h1' : ∀ x, d₁ x = countNotIn g parts (Pp ++ [cur]) x := by
      intro x
      rw [r1 x, hsnoc x]
      simp
    have h2' : ∀ x ∈ next₁, ready g (Pp ++ [cur]) x := by
      intro x hx
      rcases r2 x hx with h | ⟨h₁, h₂⟩
      · exact ready_mono (fun w hw => List.mem_append.mpr (Or.inl hw)) h
      · refine ready_of_count_zero hedge ?_
        rw [hsnoc x]
        simp only [List.nil_append] at h₁
        rw [if_pos h₁]
        omega
    have h4' : ((Pp ++ [cur]) ++ rest).Nodup := by
      rw [List.append_assoc]
      exact h4
    have h5' : ∀ x ∈ rest, x ∈ parts :=
      fun x hx => h5 x (List.mem_cons_of_mem _ hx)
    obtain ⟨q1, q2, q3, q4, q5⟩ := ih (Pp ++ [cur]) d₁ next₁ h1' h2' r4 h4' h5'
    have happ : (Pp ++ [cur]) ++ rest = Pp ++ cur :: rest := by
      rw [List.append_assoc]
      rfl
    rw [happ] at q1 q2
    refine ⟨q1, q2, q3, ?_, ?_⟩
    · intro x hx
      rcases q4 x hx with h | h
      · rcases r3 x h with h' | ⟨h₁, h₂⟩
        · exact Or.inl h'
        · refine Or.inr ?_
          intro hready
          have := @count_zero_of_ready _ parts _ _ hready
          omega
      · refine Or.inr ?_
        intro hready
        exact h (ready_mono (fun w hw => List.mem_append.mpr (Or.inl hw)) hready)
    · intro x hx
      rcases q5 x hx with h | h
      · rcases r3 x h with h' | ⟨h₁, h₂⟩
        · exact Or.inl h'
        · exact Or.inr (hedge2 cur x h₁)
      · exact Or.inr h

theorem acc_no_cycle {α : Type} {r : α → α → Prop} {x : α} (hacc : Acc r x)
    (hcyc : Relation.TransGen r x x) : False := by
  induction hacc with
  | intro x h ih =>
    obtain ⟨y, hxy, hyx⟩ := Relation.TransGen.tail'_iff.mp hcyc
    exact ih y hyx (Relation.TransGen.trans_left (Relation.TransGen.single hyx) hxy)

theorem kahnLevels_acc (g : String → List String) (parts : List String)
    (hndparts : parts.Nodup)
    (hedge : ∀ w x, x ∈ g w → w ∈ parts)
    (hedge2 : ∀ w x, x ∈ g w → x ∈ parts)
    (hgnodup : ∀ w, (g w).Nodup) :
    ∀ (fuel : Nat) (d : String → Int) (queue P : List String),
      (∀ x, d x = countNotIn g parts P x) →
      (∀ x ∈ P ++ queue, ready g P x) →
      (P ++ queue).Nodup →
      (∀ x ∈ P, x ∈ parts) → (∀ x ∈ queue, x ∈ parts) →
      (∀ x ∈ P, Acc (fun a b => b ∈ g a) x) →
      ∀ lvl ∈ kahnLevels g fuel d queue, ∀ x ∈ lvl, Acc (fun a b => b ∈ g a) x := by
  intro fuel
  induction fuel with
  | zero =>
    intro d queue P _ _ _ _ _ _ lvl hlvl
    simp [kahnLevels] at hlvl
  | succ n ih =>
    intro d queue P h1 h2 h3 hP hQ hAcc lvl hlvl
    rw [kahnLevels] at hlvl
    by_cases hq : queue = []
    · rw [if_pos hq] at hlvl
      simp at hlvl
    · rw [if_neg hq] at hlvl
      have hqAcc : ∀ x ∈ queue, Acc (fun a b => b ∈ g a) x := by
        intro x hx
        refine Acc.intro x (fun y hy => ?_)
        have hready := h2 x (List.mem_append.mpr (Or.inr hx))
        exact hAcc y (hready y hy)
      rcases List.mem_cons.mp hlvl with rfl | hrest
      · exact hqAcc
      · obtain ⟨q1, q2, q3, q4, q5⟩ :=
          levelFold_spec g parts hndparts hedge hedge2 hgnodup queue P d []
            h1 (fun x hx => absurd hx (List.not_mem_nil x)) List.nodup_nil h3 hQ
        have hnew4 : ∀ x ∈ (processLevel g d queue).2, ¬ ready g P x := by
          intro x hx
          rcases q4 x hx with h | h
          · exact absurd h (List.not_mem_nil x)
          · exact h
        have hnew5 : ∀ x ∈ (processLevel g d queue).2, x ∈ parts := by
          intro x hx
          rcases q5 x hx with h | h
          · exact absurd h (List.not_mem_nil x)
          · exact h
        refine ih (processLevel g d queue).1 (processLevel g d queue).2 (P ++ queue)
          q1 ?_ ?_ ?_ hnew5 ?_ lvl hrest
        · intro x hx
          rcases List.mem_append.mp hx with h | h
          · rcases List.mem_append.mp h with h' | h'
            · exact ready_mono (fun w hw => List.mem_append.mpr (Or.inl hw))
                (h2 x (List.mem_append.mpr (Or.inl h')))
            · exact ready_mono (fun w hw => List.mem_append.mpr (Or.inl hw))
                (h2 x (List.mem_append.mpr (Or.inr h')))
          · exact q2 x h
        · rw [List.nodup_append]
          refine ⟨h3, q3, ?_⟩
          intro a ha ha'
          exact hnew4 a ha' (h2 a ha)
        · intro x hx
          rcases List.mem_append.mp hx with h | h
          · exact hP x h
          · exact hQ x h
        · intro x hx
          rcases List.mem_append.mp hx with h | h
          · exact hAcc x h
          · exact hqAcc x h

/-- Claim part (c): a participant on a cycle of "beats" edges appears in no
level. -/
theorem topSort_cycle_dropped (outcomes : List (String × String))
    (parts : List String) (p : String)
    (hndparts : parts.Nodup)
    (hdom : ∀ e ∈ outcomes, e.1 ∈ parts ∧ e.2 ∈ parts)
    (hcyc : Relation.TransGen (fun x y => (x, y) ∈ outcomes) p p) :
    ∀ lvl ∈ topologicalSortParticipants outcomes parts, p ∉ lvl := by
  intro lvl hlvl hp
  unfold topologicalSortParticipants at hlvl
  set g := (buildGD outcomes).1 with hg
  set d := (buildGD outcomes).2 with hd
  have hedge : ∀ w x, x ∈ g w → w ∈ parts := fun w x hx =>
    (hdom (w, x) ((buildGD_adj outcomes w x).mp hx)).1
  have hedge2 : ∀ w x, x ∈ g w → x ∈ parts := fun w x hx =>
    (hdom (w, x) ((buildGD_adj outcomes w x).mp hx)).2
  have hgnodup : ∀ w, (g w).Nodup := buildGD_nodup outcomes
  have hdc : ∀ x, d x = countNotIn g parts [] x := fun x =>
    buildGD_deg_count outcomes parts hndparts (fun e he => (hdom e he).1) x
  have hqready : ∀ x ∈ ([] : List String) ++ parts.filter (fun q => decide (d q = 0)),
      ready g ([] : List String) x := by
    intro x hx
    simp only [List.nil_append] at hx
    rw [List.mem_filter] at hx
    have hx0 : d x = 0 := by simpa using hx.2
    intro w hw
    have h0 : countNotIn g parts [] x = 0 := by rw [← hdc x]; exact hx0
    have := (countNotIn_eq_zero_iff g parts [] x).mp h0 w (hedge w x hw) hw
    simp at this
  have hnodup : (([] : List String) ++ parts.filter (fun q => decide (d q = 0))).Nodup := by
    simp only [List.nil_append]
    exact hndparts.filter _
  have hacc := kahnLevels_acc g parts hndparts hedge hedge2 hgnodup parts.length d
    (parts.filter (fun q => decide (d q = 0))) []
    (fun x => hdc x) hqready hnodup (fun x hx => absurd hx (List.not_mem_nil x))
    (fun x hx => (List.mem_filter.mp hx).1)
    (fun x hx => absurd hx (List.not_mem_nil x))
    lvl hlvl p hp
  have hcyc' : Relation.TransGen (fun a b => b ∈ g a) p p := by
    refine Relation.TransGen.mono ?_ hcyc
    intro a b hab
    exact (buildGD_adj outcomes a b).mpr hab
  exact acc_no_cycle hacc hcyc'

theorem outcomeOf_eq_some {m : MaturityMatchResult} {e : String × String}
    (h : outcomeOf m = some e) :
    (m.result = "p1" ∧ e.1 = m.player1 ∧ e.2 = m.player2) ∨
    (m.result = "p2" ∧ e.1 = m.player2 ∧ e.2 = m.player1) := by
  unfold outcomeOf at h
  by_cases h1 : m.result = "p1"
  · rw [if_pos h1] at h
    obtain ⟨rfl⟩ := Option.some.injEq _ _ ▸ h
    exact Or.inl ⟨h1, rfl, rfl⟩
  · rw [if_neg h1] at h
    by_cases h2 : m.result = "p2"
    · rw [if_pos h2] at h
      obtain ⟨rfl⟩ := Option.some.injEq _ _ ▸ h
      exact Or.inr ⟨h2, rfl, rfl⟩
    · rw [if_neg h2] at h
      exact absurd h (by simp)

theorem topSort_chain (a b c : String) (hab : a ≠ b) (hac : a ≠ c)
    (hbc : b ≠ c) :
    topologicalSortParticipants [(a, b), (b, c)] [a, b, c] = [[a], [b], [c]] := by
  simp [topologicalSortParticipants, buildGD, addOutcome, updF, kahnLevels,
    processLevel, processNode, stepBeaten, hab, hac, hbc,
    Ne.symm hab, Ne.symm hac, Ne.symm hbc]

/-- C3: the Maturity topological leveling (Kahn's algorithm over the
deduplicated winner→loser edges from `pairingOutcomes`).  (a) For match
results "A beats B" and "B beats C" with no other matches, the levels are
`[[A], [B], [C]]`.  (b) A participant involved in no decisive match
appears in level 0.  (c) A participant lying on a cycle of "beats" edges
(so it never reaches in-degree zero) appears in no level at all. -/
theorem maturity_topological_leveling :
    (∀ (m₁ m₂ : MaturityMatchResult) (a b c : String),
      a ≠ b → a ≠ c → b ≠ c →
      m₁.player1 = a → m₁.player2 = b → m₁.result = "p1" →
      m₂.player1 = b → m₂.player2 = c → m₂.result = "p1" →
      topologicalSortParticipants (pairingOutcomes [m₁, m₂]) [a, b, c] =
        [[a], [b], [c]]) ∧
    (∀ (results : List MaturityMatchResult) (parts : List String) (p : String),
      p ∈ parts →
      (∀ m ∈ results, (m.result = "p1" ∨ m.result = "p2") →
        m.player1 ≠ p ∧ m.player2 ≠ p) →
      p ∈ (topologicalSortParticipants (pairingOutcomes results) parts).headD []) ∧
    (∀ (results : List MaturityMatchResult) (parts : List String) (p : String),
      parts.Nodup →
      (∀ e ∈ pairingOutcomes results, e.1 ∈ parts ∧ e.2 ∈ parts) →
      Relation.TransGen (fun x y => (x, y) ∈ pairingOutcomes results) p p →
      ∀ lvl ∈ topologicalSortParticipants (pairingOutcomes results) parts,
        p ∉ lvl) := by
  refine ⟨?_, ?_, ?_⟩
  · intro m₁ m₂ a b c hab hac hbc hp₁ hp₂ hr₁ hq₁ hq₂ hr₂
    have houtc : pairingOutcomes [m₁, m₂] = [(a, b), (b, c)] := by
      rw [pairingOutcomes_two]
      simp [outcomeOf, List.filterMap, hr₁, hr₂, hp₁, hp₂, hq₁, hq₂]
    rw [houtc]
    exact topSort_chain a b c hab hac hbc
  · intro results parts p hp hnone
    refine topSort_level0 (pairingOutcomes results) parts p hp ?_
    intro e he
    obtain ⟨m, hm, hout⟩ := pairingOutcomes_sound results e he
    rcases outcomeOf_eq_some hout with ⟨hr, h1, h2⟩ | ⟨hr, h1, h2⟩
    · have := hnone m hm (Or.inl hr)
      exact ⟨h1 ▸ this.1, h2 ▸ this.2⟩
    · have := hnone m hm (Or.inr hr)
      exact ⟨h1 ▸ this.2, h2 ▸ this.1⟩
  · intro results parts p hnd hdom hcyc
    exact topSort_cycle_dropped (pairingOutcomes results) parts p hnd hdom hcyc

/-- "A beats B" (1–0). -/
def mAB : MaturityMatchResult := ⟨"2024-01-01", "A", "B", "p1", 1, 0⟩

/-- "B beats C" (1–0). -/
def mBC : MaturityMatchResult := ⟨"2024-01-02", "B", "C", "p1", 1, 0⟩

/-- "B beats A" (1–0), closing a two-cycle with `mAB`. -/
def mBA : MaturityMatchResult := ⟨"2024-01-03", "B", "A", "p1", 1, 0⟩

/-- Witness for C3 at concrete inputs: the chain A→B→C levels as
`[[A], [B], [C]]`; participant D with no decisive match lands in level 0;
and participant A on the cycle A beats B / B beats A is emitted in no
level. -/
theorem maturity_topological_leveling_witness :
    topologicalSortParticipants (pairingOutcomes [mAB, mBC]) ["A", "B", "C"] =
      [["A"], ["B"], ["C"]] ∧
    "D" ∈ (topologicalSortParticipants (pairingOutcomes [mAB])
      ["A", "B", "D"]).headD [] ∧
    (∀ lvl ∈ topologicalSortParticipants (pairingOutcomes [mAB, mBA]) ["A", "B"],
      "A" ∉ lvl) := by
  obtain ⟨h1, h2, h3⟩ := maturity_topological_leveling
  refine ⟨h1 mAB mBC "A" "B" "C" (by decide) (by decide) (by decide)
      rfl rfl rfl rfl rfl rfl,
    h2 [mAB] ["A", "B", "D"] "D" (by decide) (by decide),
    h3 [mAB, mBA] ["A", "B"] "A" (by decide) (by decide) ?_⟩
  refine Relation.TransGen.head (b := "B") ?_ (Relation.TransGen.single ?_)
  · decide
  · decide

/-! ## Hive roster loader: total-game counting (src/lib/basePath.ts,
`countGamesForPlayers`)

Source:
```
const nickToGameIds = new Map<string, Set<string>>()
for (const g of games) {
  const wid = g.white_player.username
  const bid = g.black_player.username
  if (!nickToGameIds.has(wid)) nickToGameIds.set(wid, new Set())
  if (!nickToGameIds.has(bid)) nickToGameIds.set(bid, new Set())
  nickToGameIds.get(wid)!.add(g.game_id)
  nickToGameIds.get(bid)!.add(g.game_id)
}
for (const p of players) {
  if (p.is_known) {
    const uniq = new Set<string>()
    for (const tagged of p.hivegame_nicks) {
      const nick = tagged.replace(/^HG#/, "")
      const s = nickToGameIds.get(nick)
      if (s) for (const gid of s) uniq.add(gid)
    }
    p.total_games = uniq.size
  } else { ... }
}
```
A JavaScript `Set` is modelled as the insertion-ordered duplicate-free
list of its elements (`jsSetAdd` is `Set.add`), and the `Map` of sets as a
total function with default `[]` (a missing key and an empty set are
observationally the same here).  The known-player branch becomes
`countGamesKnown`. -/

inductive GameStatus where
  | finishedDraw : GameStatus
  | finishedWinner : String → GameStatus
deriving DecidableEq, Repr

structure RawCacheGame where
  game_id : String
  white_username : String
  black_username : String
  game_status : GameStatus
  rated : Bool
  created_at : String
  last_interaction : Option String
deriving DecidableEq, Repr

/-- `tagged.replace(/^HG#/, "")`: drop one leading `HG#` if present. -/
def stripHG (s : String) : String :=
  match s.data with
  | 'H' :: 'G' :: '#' :: rest => String.mk rest
  | _ => s

/-- JavaScript `Set.prototype.add` on the insertion-ordered element
list. -/
def jsSetAdd (l : List String) (a : String) : List String :=
  if a ∈ l then l else l ++ [a]

def nickToGameIds (games : List RawCacheGame) : String → List String :=
  games.foldl
    (fun m g => fun n =>
      if n = g.white_username ∨ n = g.black_username then jsSetAdd (m n) g.game_id
      else m n)
    (fun _ => [])

/-- The known-player branch of `countGamesForPlayers`: pour every alias's
id set into `uniq`, then take its size. -/
def countGamesKnown (games : List RawCacheGame) (hivegame_nicks : List String) :
    Nat :=
  (hivegame_nicks.foldl
    (fun acc tagged => (nickToGameIds games (stripHG tagged)).foldl jsSetAdd acc)
    []).length

/-- Modelled from the spec's words, for comparison with the code: the set
of distinct game ids involving a given alias. -/
def gamesInvolvingAlias (games : List RawCacheGame) (a : String) :
    Finset String :=
  ((games.filter
    (fun g => decide (g.white_username = a ∨ g.black_username = a))).map
      (fun g => g.game_id)).toFinset

/-- Modelled from the spec's words: the union over a list of aliases of
the per-alias distinct-game-id sets. -/
def aliasGamesUnion (games : List RawCacheGame) (aliases : List String) :
    Finset String :=
  aliases.foldr (fun a acc => gamesInvolvingAlias games a ∪ acc) ∅

theorem jsSetAdd_nodup {l : List String} (h : l.Nodup) (a : String) :
    (jsSetAdd l a).Nodup := by
  unfold jsSetAdd
  by_cases ha : a ∈ l
  · rw [if_pos ha]; exact h
  · rw [if_neg ha]
    rw [List.nodup_append]
    exact ⟨h, List.nodup_singleton _, by
      intro x hx hx'
      rw [List.mem_singleton] at hx'
      exact ha (hx' ▸ hx)⟩

theorem jsSetAdd_toFinset (l : List String) (a : String) :
    (jsSetAdd l a).toFinset = insert a l.toFinset := by
  unfold jsSetAdd
  by_cases ha : a ∈ l
  · rw [if_pos ha]
    rw [Finset.insert_eq_self.mpr (List.mem_toFinset.mpr ha)]
  · rw [if_neg ha]
    rw [List.toFinset_append]
    simp only [List.toFinset_cons, List.toFinset_nil, insert_emptyc_eq]
    rw [Finset.insert_eq, Finset.union_comm]

theorem foldl_jsSetAdd_nodup (s : List String) :
    ∀ acc : List String, acc.Nodup → (s.foldl jsSetAdd acc).Nodup := by
  induction s with
  | nil => intro acc h; exact h
  | cons a s ih =>
    intro acc h
    rw [List.foldl_cons]
    exact ih _ (jsSetAdd_nodup h a)

theorem foldl_jsSetAdd_toFinset (s : List String) :
    ∀ acc : List String,
      (s.foldl jsSetAdd acc).toFinset = acc.toFinset ∪ s.toFinset := by
  induction s with
  | nil => intro acc; simp
  | cons a s ih =>
    intro acc
    rw [List.foldl_cons, ih, jsSetAdd_toFinset, List.toFinset_cons,
      Finset.insert_union, Finset.union_insert]

theorem nickToGameIds_spec_aux (games : List RawCacheGame) :
    ∀ (m : String → List String) (n : String),
      ((games.foldl
        (fun m g => fun n =>
          if n = g.white_username ∨ n = g.black_username then jsSetAdd (m n) g.game_id
          else m n) m) n).toFinset = (m n).toFinset ∪ gamesInvolvingAlias games n := by
  induction games with
  | nil =>
    intro m n
    simp [gamesInvolvingAlias]
  | cons g gs ih =>
    intro m n
    rw [List.foldl_cons, ih]
    have hinv : gamesInvolvingAlias (g :: gs) n =
        if n = g.white_username ∨ n = g.black_username then
          insert g.game_id (gamesInvolvingAlias gs n)
        else gamesInvolvingAlias gs n := by
      unfold gamesInvolvingAlias
      by_cases hc : n = g.white_username ∨ n = g.black_username
      · rw [if_pos hc, List.filter_cons_of_pos (by
          simp only [decide_eq_true_eq]
          exact hc.imp Eq.symm Eq.symm)]
        simp
      · rw [if_neg hc, List.filter_cons_of_neg (by
          simp only [decide_eq_true_eq]
          intro h
          exact hc (h.imp Eq.symm Eq.symm))]
    rw [hinv]
    by_cases hc : n = g.white_username ∨ n = g.black_username
    · rw [if_pos hc, if_pos hc, jsSetAdd_toFinset]
      rw [Finset.insert_union, Finset.union_insert]
    · rw [if_neg hc, if_neg hc]

theorem nickToGameIds_nodup (games : List RawCacheGame) :
    ∀ n, (nickToGameIds games n).Nodup := by
  unfold nickToGameIds
  suffices h : ∀ (m : String → List String), (∀ n, (m n).Nodup) →
      ∀ n, ((games.foldl
        (fun m g => fun n =>
          if n = g.white_username ∨ n = g.black_username then jsSetAdd (m n) g.game_id
          else m n) m) n).Nodup by
    exact h _ (fun _ => List.nodup_nil)
  induction games with
  | nil => intro m hm n; exact hm n
  | cons g gs ih =>
    intro m hm n
    rw [List.foldl_cons]
    refine ih _ (fun k => ?_) n
    by_cases hc : k = g.white_username ∨ k = g.black_username
    · rw [if_pos hc]
      exact jsSetAdd_nodup (hm k) _
    · rw [if_neg hc]
      exact hm k

theorem nickToGameIds_toFinset (games : List RawCacheGame) (n : String) :
    (nickToGameIds games n).toFinset = gamesInvolvingAlias games n := by
  unfold nickToGameIds
  rw [nickToGameIds_spec_aux]
  simp

/-- C5: for every list of cached games and every known player's alias
list, the computed `total_games` equals the size of the union, over all of
the player's (de-tagged) aliases, of the sets of distinct game ids
involving each alias — no double counting when several aliases meet in
one game, no under counting across aliases. -/
theorem countGamesKnown_is_alias_union (games : List RawCacheGame)
    (hivegame_nicks : List String) :
    countGamesKnown games hivegame_nicks =
      (aliasGamesUnion games (hivegame_nicks.map stripHG)).card := by
  unfold countGamesKnown
  have hmain : ∀ (acc : List String), acc.Nodup →
      (hivegame_nicks.foldl
        (fun acc tagged => (nickToGameIds games (stripHG tagged)).foldl jsSetAdd acc)
        acc).toFinset =
        acc.toFinset ∪ aliasGamesUnion games (hivegame_nicks.map stripHG) ∧
      (hivegame_nicks.foldl
        (fun acc tagged => (nickToGameIds games (stripHG tagged)).foldl jsSetAdd acc)
        acc).Nodup := by
    induction hivegame_nicks with
    | nil =>
      intro acc hacc
      constructor
      · simp [aliasGamesUnion]
      · exact hacc
    | cons t ts ih =>
      intro acc hacc
      rw [List.foldl_cons]
      obtain ⟨h1, h2⟩ := ih ((nickToGameIds games (stripHG t)).foldl jsSetAdd acc)
        (foldl_jsSetAdd_nodup _ acc hacc)
      refine ⟨?_, h2⟩
      rw [h1, foldl_jsSetAdd_toFinset, nickToGameIds_toFinset]
      unfold aliasGamesUnion
      rw [List.map_cons, List.foldr_cons]
      rw [Finset.union_assoc]
  obtain ⟨h1, h2⟩ := hmain [] List.nodup_nil
  have hcard := List.toFinset_card_of_nodup h2
  rw [← hcard, h1]
  simp

/-- Witness-style corollary evaluating C5's statement at the spec's own
concrete scenario: a player with two aliases, each appearing in one
distinct game, has `total_games = 2`. -/
theorem countGamesKnown_witness :
    countGamesKnown
        [⟨"g1", "nickOne", "someone", GameStatus.finishedDraw, true, "t1", none⟩,
         ⟨"g2", "other", "nickTwo", GameStatus.finishedDraw, true, "t2", none⟩]
        ["HG#nickOne", "HG#nickTwo"] =
      (aliasGamesUnion
        [⟨"g1", "nickOne", "someone", GameStatus.finishedDraw, true, "t1", none⟩,
         ⟨"g2", "other", "nickTwo", GameStatus.finishedDraw, true, "t2", none⟩]
        (["HG#nickOne", "HG#nickTwo"].map stripHG)).card ∧
    countGamesKnown
        [⟨"g1", "nickOne", "someone", GameStatus.finishedDraw, true, "t1", none⟩,
         ⟨"g2", "other", "nickTwo", GameStatus.finishedDraw, true, "t2", none⟩]
        ["HG#nickOne", "HG#nickTwo"] = 2 :=
  ⟨countGamesKnown_is_alias_union _ _, by decide⟩

/-! ## Hive table build-time aggregator (src/app/hive/page.tsx, `Hive`)

The aggregation core: every cached game is canonicalised to
`{whiteId, blackId, rated, result}` (known-player tag or `HG#` alias tag),
games with no known side are dropped, and for every ordered pair of
distinct roster indices the rated and unrated `{wins, losses, draws}`
triples are accumulated by scanning the canonical games; a pair is emitted
only when some bucket is non-zero. -/

inductive GameResult where
  | white : GameResult
  | black : GameResult
  | draw : GameResult
deriving DecidableEq, Repr

/-- `resultLabel`: a missing/unknown winner string falls through to
`"black"` exactly as `winner === "White" ? "white" : "black"` does. -/
def resultLabel (g : RawCacheGame) : GameResult :=
  match g.game_status with
  | GameStatus.finishedDraw => GameResult.draw
  | GameStatus.finishedWinner w =>
    if w = "White" then GameResult.white else GameResult.black

structure CanonGame where
  whiteId : String
  blackId : String
  rated : Bool
  result : GameResult
deriving DecidableEq, Repr

/-- `` tagHG(nick) = `HG#${nick.replace(/^HG#/, "")}` ``. -/
def tagHG (nick : String) : String := "HG#" ++ stripHG nick

/-- `id.startsWith("player#")`. -/
def hasPlayerTag (s : String) : Bool :=
  match s.data with
  | 'p' :: 'l' :: 'a' :: 'y' :: 'e' :: 'r' :: '#' :: _ => true
  | _ => false

/-- The `canonGames` computation of the page: resolve each side to a known
id or a tagged alias and keep only games with at least one known side. -/
def canonGames (nickToKnownId : String → Option String)
    (games : List RawCacheGame) : List CanonGame :=
  (games.map (fun g =>
    CanonGame.mk
      ((nickToKnownId g.white_username).getD (tagHG g.white_username))
      ((nickToKnownId g.black_username).getD (tagHG g.black_username))
      g.rated (resultLabel g))).filter
    (fun cg => hasPlayerTag cg.whiteId || hasPlayerTag cg.blackId)

/-- The inner-loop body accumulating one canonical game into the
`(rated, unrated)` buckets of the ordered pair `(rowId, colId)`. -/
def addPairGame (rowId colId : String) (acc : WLD × WLD) (g : CanonGame) :
    WLD × WLD :=
  if (g.whiteId = rowId ∧ g.blackId = colId) ∨
      (g.whiteId = colId ∧ g.blackId = rowId) then
    let upd : WLD → WLD := fun b =>
      if g.result = GameResult.draw then ⟨b.wins, b.losses, b.draws + 1⟩
      else if (g.result = GameResult.white ∧ g.whiteId = rowId) ∨
          (g.result = GameResult.black ∧ g.blackId = rowId) then
        ⟨b.wins + 1, b.losses, b.draws⟩
      else ⟨b.wins, b.losses + 1, b.draws⟩
    if g.rated then (upd acc.1, acc.2) else (acc.1, upd acc.2)
  else acc

def pairStats (games : List CanonGame) (rowId colId : String) : WLD × WLD :=
  games.foldl (addPairGame rowId colId) (⟨0, 0, 0⟩, ⟨0, 0, 0⟩)

/-- `rated.wins + rated.losses + rated.draws > 0 || unrated… > 0`. -/
def statsNonzero (s : WLD × WLD) : Bool :=
  decide (0 < s.1.wins + s.1.losses + s.1.draws) ||
    decide (0 < s.2.wins + s.2.losses + s.2.draws)

/-- The double loop over roster indices `i ≠ j` emitting the retained
`GameStats` entries in loop order. -/
def gameStatsList (ids : List String) (games : List CanonGame) :
    List GameStats :=
  (List.range ids.length).bind (fun i =>
    (List.range ids.length).filterMap (fun j =>
      if i = j then none
      else
        let s := pairStats games (ids.getD i "") (ids.getD j "")
        if statsNonzero s then
          some (GameStats.mk (ids.getD i "") (ids.getD j "") s.1 s.2)
        else none))

/-- The mirror relation between the buckets of `(A, B)` and `(B, A)`. -/
def MirrorStats (s t : WLD × WLD) : Prop :=
  s.1.wins = t.1.losses ∧ s.1.losses = t.1.wins ∧ s.1.draws = t.1.draws ∧
  s.2.wins = t.2.losses ∧ s.2.losses = t.2.wins ∧ s.2.draws = t.2.draws

theorem addPairGame_mirror (A B : String) (hAB : A ≠ B) (g : CanonGame)
    (acc₁ acc₂ : WLD × WLD) (h : MirrorStats acc₁ acc₂) :
    MirrorStats (addPairGame A B acc₁ g) (addPairGame B A acc₂ g) := by
  obtain ⟨h₁, h₂, h₃, h₄, h₅, h₆⟩ := h
  unfold addPairGame MirrorStats
  by_cases hm : (g.whiteId = A ∧ g.blackId = B) ∨ (g.whiteId = B ∧ g.blackId = A)
  · rw [if_pos hm, if_pos (hm.symm)]
    rcases hres : g.result with - | - | -
    · -- white wins
      rcases hm with ⟨hw, hb⟩ | ⟨hw, hb⟩
      · have hwinA : (g.result = GameResult.white ∧ g.whiteId = A) ∨
            (g.result = GameResult.black ∧ g.blackId = A) := Or.inl ⟨hres, hw⟩
        have hnwinB : ¬((g.result = GameResult.white ∧ g.whiteId = B) ∨
            (g.result = GameResult.black ∧ g.blackId = B)) := by
          rintro (⟨-, hw'⟩ | ⟨hres', -⟩)
          · exact hAB (hw.symm.trans hw')
          · rw [hres] at hres'
            exact absurd hres' (by simp)
        simp only [hres]
        by_cases hr : g.rated <;>
          simp [hr, if_pos hwinA, if_neg hnwinB, h₁, h₂, h₃, h₄, h₅, h₆, hw, hb,
            Ne.symm hAB, hAB]
      · have hnwinA : ¬((g.result = GameResult.white ∧ g.whiteId = A) ∨
            (g.result = GameResult.black ∧ g.blackId = A)) := by
          rintro (⟨-, hw'⟩ | ⟨hres', -⟩)
          · exact hAB (hw'.symm.trans hw)
          · rw [hres] at hres'
            exact absurd hres' (by simp)
        have hwinB : (g.result = GameResult.white ∧ g.whiteId = B) ∨
            (g.result = GameResult.black ∧ g.blackId = B) := Or.inl ⟨hres, hw⟩
        simp only [hres]
        by_cases hr : g.rated <;>
          simp [hr, if_neg hnwinA, if_pos hwinB, h₁, h₂, h₃, h₄, h₅, h₆, hw, hb,
            Ne.symm hAB, hAB]
    · -- black wins
      rcases hm with ⟨hw, hb⟩ | ⟨hw, hb⟩
      · have hnwinA : ¬((g.result = GameResult.white ∧ g.whiteId = A) ∨
            (g.result = GameResult.black ∧ g.blackId = A)) := by
          rintro (⟨hres', -⟩ | ⟨-, hb'⟩)
          · rw [hres] at hres'
            exact absurd hres' (by simp)
          · exact hAB (hb'.symm.trans hb)
        have hwinB : (g.result = GameResult.white ∧ g.whiteId = B) ∨
            (g.result = GameResult.black ∧ g.blackId = B) := Or.inr ⟨hres, hb⟩
        simp only [hres]
        by_cases hr : g.rated <;>
          simp [hr, if_neg hnwinA, if_pos hwinB, h₁, h₂, h₃, h₄, h₅, h₆, hw, hb,
            Ne.symm hAB, hAB]
      · have hwinA : (g.result = GameResult.white ∧ g.whiteId = A) ∨
            (g.result = GameResult.black ∧ g.blackId = A) := Or.inr ⟨hres, hb⟩
        have hnwinB : ¬((g.result = GameResult.white ∧ g.whiteId = B) ∨
            (g.result = GameResult.black ∧ g.blackId = B)) := by
          rintro (⟨hres', -⟩ | ⟨-, hb'⟩)
          · rw [hres] at hres'
            exact absurd hres' (by simp)
          · exact hAB (hb.symm.trans hb')
        simp only [hres]
        by_cases hr : g.rated <;>
          simp [hr, if_pos hwinA, if_neg hnwinB, h₁, h₂, h₃, h₄, h₅, h₆, hw, hb,
            Ne.symm hAB, hAB]
    · -- draw
      simp only [hres]
      by_cases hr : g.rated <;>
        simp [hr, h₁, h₂, h₃, h₄, h₅, h₆]
  · rw [if_neg hm, if_neg (fun hc => hm hc.symm)]
    exact ⟨h₁, h₂, h₃, h₄, h₅, h₆⟩

theorem pairStats_mirror (games : List CanonGame) (A B : String) (hAB : A ≠ B) :
    MirrorStats (pairStats games A B) (pairStats games B A) := by
  unfold pairStats
  suffices h : ∀ acc₁ acc₂, MirrorStats acc₁ acc₂ →
      MirrorStats (games.foldl (addPairGame A B) acc₁)
        (games.foldl (addPairGame B A) acc₂) by
    exact h _ _ ⟨rfl, rfl, rfl, rfl, rfl, rfl⟩
  induction games with
  | nil => intro acc₁ acc₂ h; exact h
  | cons g gs ih =>
    intro acc₁ acc₂ h
    rw [List.foldl_cons, List.foldl_cons]
    exact ih _ _ (addPairGame_mirror A B hAB g acc₁ acc₂ h)

theorem statsNonzero_mirror {s t : WLD × WLD} (h : MirrorStats s t) :
    statsNonzero s = statsNonzero t := by
  obtain ⟨h₁, h₂, h₃, h₄, h₅, h₆⟩ := h
  unfold statsNonzero
  rw [h₁, h₂, h₃, h₄, h₅, h₆]
  have e₁ : t.1.losses + t.1.wins + t.1.draws = t.1.wins + t.1.losses + t.1.draws := by
    omega
  have e₂ : t.2.losses + t.2.wins + t.2.draws = t.2.wins + t.2.losses + t.2.draws := by
    omega
  rw [e₁, e₂]

theorem gameStatsList_mem (ids : List String) (games : List CanonGame)
    (e : GameStats) :
    e ∈ gameStatsList ids games ↔
      ∃ i, i < ids.length ∧ ∃ j, j < ids.length ∧ i ≠ j ∧
        statsNonzero (pairStats games (ids.getD i "") (ids.getD j "")) = true ∧
        e = GameStats.mk (ids.getD i "") (ids.getD j "")
          (pairStats games (ids.getD i "") (ids.getD j "")).1
          (pairStats games (ids.getD i "") (ids.getD j "")).2 := by
  unfold gameStatsList
  rw [List.mem_bind]
  constructor
  · rintro ⟨i, hi, hmem⟩
    rw [List.mem_range] at hi
    rw [List.mem_filterMap] at hmem
    obtain ⟨j, hj, hpair⟩ := hmem
    rw [List.mem_range] at hj
    by_cases hij : i = j
    · rw [if_pos hij] at hpair
      exact absurd hpair (by simp)
    · rw [if_neg hij] at hpair
      simp only at hpair
      by_cases hnz : statsNonzero (pairStats games (ids.getD i "") (ids.getD j "")) = true
      · rw [if_pos hnz] at hpair
        injection hpair with hp
        exact ⟨i, hi, j, hj, hij, hnz, hp.symm⟩
      · rw [if_neg hnz] at hpair
        exact absurd hpair (by simp)
  · rintro ⟨i, hi, j, hj, hij, hnz, rfl⟩
    refine ⟨i, List.mem_range.mpr hi, ?_⟩
    rw [List.mem_filterMap]
    refine ⟨j, List.mem_range.mpr hj, ?_⟩
    rw [if_neg hij]
    simp only
    rw [if_pos hnz]

/-- C9: the build-time pairwise aggregator's output is mirror-symmetric:
for distinct player ids `A`, `B`, an entry `(A, B)` is present iff the
entry `(B, A)` is, and between two such entries each ratedness bucket has
the wins of one equal to the losses of the other and equal draw counts. -/
theorem hiveAggregate_mirror_symmetric (nickToKnownId : String → Option String)
    (raws : List RawCacheGame) (ids : List String) (A B : String)
    (hAB : A ≠ B) :
    ((∃ e ∈ gameStatsList ids (canonGames nickToKnownId raws),
        e.player1 = A ∧ e.player2 = B) ↔
      (∃ e ∈ gameStatsList ids (canonGames nickToKnownId raws),
        e.player1 = B ∧ e.player2 = A)) ∧
    (∀ e₁ ∈ gameStatsList ids (canonGames nickToKnownId raws),
      ∀ e₂ ∈ gameStatsList ids (canonGames nickToKnownId raws),
      e₁.player1 = A → e₁.player2 = B → e₂.player1 = B → e₂.player2 = A →
      e₁.rated_stats.wins = e₂.rated_stats.losses ∧
      e₁.rated_stats.losses = e₂.rated_stats.wins ∧
      e₁.rated_stats.draws = e₂.rated_stats.draws ∧
      e₁.unrated_stats.wins = e₂.unrated_stats.losses ∧
      e₁.unrated_stats.losses = e₂.unrated_stats.wins ∧
      e₁.unrated_stats.draws = e₂.unrated_stats.draws) := by
  set games := canonGames nickToKnownId raws with hgames
  have hswap : ∀ X Y : String, X ≠ Y →
      (∃ e ∈ gameStatsList ids games, e.player1 = X ∧ e.player2 = Y) →
      ∃ e ∈ gameStatsList ids games, e.player1 = Y ∧ e.player2 = X := by
    intro X Y hXY ⟨e, hmem, hp1, hp2⟩
    obtain ⟨i, hi, j, hj, hij, hnz, he⟩ := (gameStatsList_mem ids games e).mp hmem
    have hidi : ids.getD i "" = X := by rw [← hp1, he]
    have hidj : ids.getD j "" = Y := by rw [← hp2, he]
    have hnz' : statsNonzero (pairStats games (ids.getD j "") (ids.getD i "")) = true := by
      rw [hidi, hidj] at hnz ⊢
      rw [statsNonzero_mirror (pairStats_mirror games Y X (Ne.symm hXY))]
      exact hnz
    refine ⟨GameStats.mk (ids.getD j "") (ids.getD i "")
        (pairStats games (ids.getD j "") (ids.getD i "")).1
        (pairStats games (ids.getD j "") (ids.getD i "")).2,
      (gameStatsList_mem ids games _).mpr ⟨j, hj, i, hi, Ne.symm hij, hnz', rfl⟩,
      ?_, ?_⟩
    · exact hidj
    · exact hidi
  constructor
  · exact ⟨hswap A B hAB, hswap B A (Ne.symm hAB)⟩
  · intro e₁ hmem₁ e₂ hmem₂ h₁A h₁B h₂B h₂A
    obtain ⟨i₁, hi₁, j₁, hj₁, hij₁, hnz₁, he₁⟩ :=
      (gameStatsList_mem ids games e₁).mp hmem₁
    obtain ⟨i₂, hi₂, j₂, hj₂, hij₂, hnz₂, he₂⟩ :=
      (gameStatsList_mem ids games e₂).mp hmem₂
    have hidi₁ : ids.getD i₁ "" = A := by rw [← h₁A, he₁]
    have hidj₁ : ids.getD j₁ "" = B := by rw [← h₁B, he₁]
    have hidi₂ : ids.getD i₂ "" = B := by rw [← h₂B, he₂]
    have hidj₂ : ids.getD j₂ "" = A := by rw [← h₂A, he₂]
    have hr₁ : e₁.rated_stats = (pairStats games A B).1 := by
      rw [he₁, hidi₁, hidj₁]
    have hu₁ : e₁.unrated_stats = (pairStats games A B).2 := by
      rw [he₁, hidi₁, hidj₁]
    have hr₂ : e₂.rated_stats = (pairStats games B A).1 := by
      rw [he₂, hidi₂, hidj₂]
    have hu₂ : e₂.unrated_stats = (pairStats games B A).2 := by
      rw [he₂, hidi₂, hidj₂]
    obtain ⟨m₁, m₂, m₃, m₄, m₅, m₆⟩ := pairStats_mirror games A B hAB
    rw [hr₁, hu₁, hr₂, hu₂]
    exact ⟨m₁, m₂, m₃, m₄, m₅, m₆⟩

/-- Witness for C9 at a concrete input: one rated game between a known
player (alice → `player#a`) and an unknown opponent (`HG#bob`). -/
theorem hiveAggregate_mirror_witness :
    ((∃ e ∈ gameStatsList ["player#a", "HG#bob"]
        (canonGames (fun n => if n = "alice" then some "player#a" else none)
          [⟨"g1", "alice", "bob", GameStatus.finishedWinner "White", true, "t", none⟩]),
        e.player1 = "player#a" ∧ e.player2 = "HG#bob") ↔
      (∃ e ∈ gameStatsList ["player#a", "HG#bob"]
        (canonGames (fun n => if n = "alice" then some "player#a" else none)
          [⟨"g1", "alice", "bob", GameStatus.finishedWinner "White", true, "t", none⟩]),
        e.player1 = "HG#bob" ∧ e.player2 = "player#a")) ∧
    (∀ e₁ ∈ gameStatsList ["player#a", "HG#bob"]
        (canonGames (fun n => if n = "alice" then some "player#a" else none)
          [⟨"g1", "alice", "bob", GameStatus.finishedWinner "White", true, "t", none⟩]),
      ∀ e₂ ∈ gameStatsList ["player#a", "HG#bob"]
        (canonGames (fun n => if n = "alice" then some "player#a" else none)
          [⟨"g1", "alice", "bob", GameStatus.finishedWinner "White", true, "t", none⟩]),
      e₁.player1 = "player#a" → e₁.player2 = "HG#bob" →
      e₂.player1 = "HG#bob" → e₂.player2 = "player#a" →
      e₁.rated_stats.wins = e₂.rated_stats.losses ∧
      e₁.rated_stats.losses = e₂.rated_stats.wins ∧
      e₁.rated_stats.draws = e₂.rated_stats.draws ∧
      e₁.unrated_stats.wins = e₂.unrated_stats.losses ∧
      e₁.unrated_stats.losses = e₂.unrated_stats.wins ∧
      e₁.unrated_stats.draws = e₂.unrated_stats.draws) :=
  hiveAggregate_mirror_symmetric
    (fun n => if n = "alice" then some "player#a" else none)
    [⟨"g1", "alice", "bob", GameStatus.finishedWinner "White", true, "t", none⟩]
    ["player#a", "HG#bob"] "player#a" "HG#bob" (by decide)

/-! ## Hive recent-games loader (src/lib/basePath.ts, `loadRecentHiveData`)
and the syndication feed (src/app/hive/recent/feed.xml/route.ts, `GET`)

The derivation of `recentGames` from the deduplicated cache: both sides
are resolved through the case-insensitive alias map, a game is kept only
if at least one side is highlighted (known and in a `highlight_games`
group), and the kept records are sorted by parsed timestamp descending
with missing or unparsable timestamps treated as epoch zero.  The platform
`Date.parse` is modelled by an oracle `dp : String → Option Int`
(`none` = `NaN`) and `Date.prototype.getUTCFullYear` by an oracle
`yearOf : Int → Int`; `new Date()` is the parameter `now`.  JavaScript's
ASCII `toLowerCase` is `jsToLower`. -/

def lowerChar (c : Char) : Char :=
  if 65 ≤ c.toNat ∧ c.toNat ≤ 90 then Char.ofNat (c.toNat + 32) else c

def jsToLower (s : String) : String := String.mk (s.data.map lowerChar)

structure RecentHiveGame where
  game_id : String
  white_player : String
  black_player : String
  white_known : Bool
  black_known : Bool
  result : GameResult
  rated : Bool
  timestamp : String
  event : Option String
deriving DecidableEq, Repr

/-- `value || fallback` on an optional string (the empty string is
falsy). -/
def jsOrElse (o : Option String) (dflt : String) : String :=
  match o with
  | some s => if s = "" then dflt else s
  | none => dflt

/-- Whether one side is highlighted: resolved to a known player whose
groups meet `highlight_games`. -/
def sideHighlighted (highlight : List String)
    (playerIdToGroups : String → List String) (knownId : Option String) :
    Bool :=
  match knownId with
  | some pid => (playerIdToGroups pid).any (fun group => decide (group ∈ highlight))
  | none => false

/-- The `.map` body of the `recentGames` derivation (`null` models the
dropped games). -/
def toRecentGame (highlight : List String)
    (nickToKnownId : String → Option String)
    (playerIdToGroups : String → List String)
    (gameIdToEvent : String → Option String) (g : RawCacheGame) :
    Option RecentHiveGame :=
  let whiteKnownId := nickToKnownId (jsToLower g.white_username)
  let blackKnownId := nickToKnownId (jsToLower g.black_username)
  let whiteHighlighted := sideHighlighted highlight playerIdToGroups whiteKnownId
  let blackHighlighted := sideHighlighted highlight playerIdToGroups blackKnownId
  if whiteHighlighted = false ∧ blackHighlighted = false then none
  else some ⟨g.game_id, g.white_username, g.black_username,
    whiteKnownId.isSome, blackKnownId.isSome, resultLabel g, g.rated,
    jsOrElse g.last_interaction g.created_at, gameIdToEvent g.game_id⟩

/-- `sortByTimestampDesc`'s parse: missing/empty/unparsable ↦ 0. -/
def parse0 (dp : String → Option Int) (s : String) : Int :=
  if s = "" then 0 else (dp s).getD 0

/-- `comparator(a, b) ≤ 0` for `sortByTimestampDesc`. -/
def recentLe (dp : String → Option Int) (a b : RecentHiveGame) : Prop :=
  parse0 dp b.timestamp ≤ parse0 dp a.timestamp

instance (dp : String → Option Int) : DecidableRel (recentLe dp) := fun a b =>
  inferInstanceAs (Decidable (_ ≤ _))

instance (dp : String → Option Int) : IsTotal RecentHiveGame (recentLe dp) :=
  ⟨fun a b => le_total _ _⟩

instance (dp : String → Option Int) : IsTrans RecentHiveGame (recentLe dp) :=
  ⟨fun _ _ _ hab hbc => le_trans hbc hab⟩

/-- The `recentGames` list produced by `loadRecentHiveData` from the
deduplicated cache games. -/
def recentGamesList (highlight : List String)
    (nickToKnownId : String → Option String)
    (playerIdToGroups : String → List String)
    (gameIdToEvent : String → Option String) (dp : String → Option Int)
    (games : List RawCacheGame) : List RecentHiveGame :=
  (games.filterMap
    (toRecentGame highlight nickToKnownId playerIdToGroups gameIdToEvent)).insertionSort
    (recentLe dp)

/-! ### The feed route -/

def MAX_ENTRIES : Nat := 50

def resultScore (r : GameResult) : String :=
  match r with
  | GameResult.white => "1-0"
  | GameResult.black => "0-1"
  | GameResult.draw => "½-½"

def resultSummary (r : GameResult) (white black : String) : String :=
  match r with
  | GameResult.white => white ++ " defeats " ++ black
  | GameResult.black => black ++ " defeats " ++ white
  | GameResult.draw => white ++ " draws " ++ black

/-- `parseTimestamp`: missing/empty/unparsable ↦ the current time. -/
def parseTimestamp (dp : String → Option Int) (now : Int) (ts : String) :
    Int :=
  if ts = "" then now else (dp ts).getD now

structure FeedEntry where
  id : String
  title : String
  link : String
  date : Int
  description : String
  content : String
  authors : List String
deriving DecidableEq, Repr

def mkFeedEntry (dp : String → Option Int) (yearOf : Int → Int) (now : Int)
    (g : RecentHiveGame) : FeedEntry :=
  let gameUrl := "https://hivegame.com/game/" ++ g.game_id
  let publishedDate := parseTimestamp dp now g.timestamp
  let entryId :=
    "tag:hivegame.com," ++ toString (yearOf publishedDate) ++ ":" ++ g.game_id
  let score := resultScore g.result
  let summaryText :=
    resultSummary g.result g.white_player g.black_player ++ " (" ++ score ++
      "). " ++ (if g.rated then "Rated" else "Unrated") ++
      (match g.event with
       | some ev => " — Event: " ++ ev
       | none => "") ++ "."
  ⟨entryId,
   g.white_player ++ " vs " ++ g.black_player ++ " (" ++ score ++ ")",
   gameUrl, publishedDate, summaryText, summaryText,
   [g.white_player, g.black_player]⟩

structure FeedModel where
  updated : Int
  entries : List FeedEntry
deriving DecidableEq, Repr

/-- The pure content of the `GET` handler: the feed-level `updated`
timestamp and the emitted entries. -/
def feedGET (dp : String → Option Int) (yearOf : Int → Int) (now : Int)
    (recentGames : List RecentHiveGame) : FeedModel :=
  { updated :=
      match recentGames with
      | [] => now
      | g :: _ => parseTimestamp dp now g.timestamp,
    entries := (recentGames.take MAX_ENTRIES).map (mkFeedEntry dp yearOf now) }

theorem toRecentGame_some {highlight : List String}
    {nickToKnownId : String → Option String}
    {playerIdToGroups : String → List String}
    {gameIdToEvent : String → Option String} {g : RawCacheGame}
    {e : RecentHiveGame}
    (h : toRecentGame highlight nickToKnownId playerIdToGroups gameIdToEvent g =
      some e) :
    e.game_id = g.game_id ∧
    ¬(sideHighlighted highlight playerIdToGroups
        (nickToKnownId (jsToLower g.white_username)) = false ∧
      sideHighlighted highlight playerIdToGroups
        (nickToKnownId (jsToLower g.black_username)) = false) := by
  unfold toRecentGame at h
  by_cases hc : sideHighlighted highlight playerIdToGroups
      (nickToKnownId (jsToLower g.white_username)) = false ∧
      sideHighlighted highlight playerIdToGroups
        (nickToKnownId (jsToLower g.black_username)) = false
  · rw [if_pos hc] at h
    exact absurd h (by simp)
  · rw [if_neg hc] at h
    injection h with h'
    exact ⟨by rw [← h'], hc⟩

theorem string_append_left_ne (p s t : String) (h : s ≠ t) : p ++ s ≠ p ++ t := by
  intro hc
  apply h
  have hdata : p.data ++ s.data = p.data ++ t.data := congrArg String.data hc
  have hst := List.append_cancel_left hdata
  cases s
  cases t
  exact congrArg String.mk hst

/-- C6: a cached game in which neither side resolves to a known player in
a `highlight_games` group is absent from the loader's recent-games list,
and therefore no feed entry links to it (assuming the cache's game ids are
distinct, which `loadAndDedupGames` guarantees). -/
theorem recentGames_excludes_unhighlighted (highlight : List String)
    (nickToKnownId : String → Option String)
    (playerIdToGroups : String → List String)
    (gameIdToEvent : String → Option String) (dp : String → Option Int)
    (yearOf : Int → Int) (now : Int) (games : List RawCacheGame)
    (g : RawCacheGame)
    (hnd : (games.map RawCacheGame.game_id).Nodup)
    (hg : g ∈ games)
    (hw : sideHighlighted highlight playerIdToGroups
      (nickToKnownId (jsToLower g.white_username)) = false)
    (hb : sideHighlighted highlight playerIdToGroups
      (nickToKnownId (jsToLower g.black_username)) = false) :
    (∀ e ∈ recentGamesList highlight nickToKnownId playerIdToGroups
        gameIdToEvent dp games, e.game_id ≠ g.game_id) ∧
    (∀ fe ∈ (feedGET dp yearOf now (recentGamesList highlight nickToKnownId
        playerIdToGroups gameIdToEvent dp games)).entries,
      fe.link ≠ "https://hivegame.com/game/" ++ g.game_id) := by
  have hmain : ∀ e ∈ recentGamesList highlight nickToKnownId playerIdToGroups
      gameIdToEvent dp games, e.game_id ≠ g.game_id := by
    intro e he
    have hperm := (List.perm_insertionSort (recentLe dp)
      (games.filterMap
        (toRecentGame highlight nickToKnownId playerIdToGroups gameIdToEvent))).mem_iff.mp
      he
    rw [List.mem_filterMap] at hperm
    obtain ⟨g', hg', hsome⟩ := hperm
    obtain ⟨hid, hhl⟩ := toRecentGame_some hsome
    intro hce
    have hgid : g'.game_id = g.game_id := by rw [← hid, hce]
    have hgg : g' = g :=
      List.inj_on_of_nodup_map hnd hg' hg hgid
    rw [hgg] at hhl
    exact hhl ⟨hw, hb⟩
  refine ⟨hmain, ?_⟩
  intro fe hfe
  simp only [feedGET, List.mem_map] at hfe
  obtain ⟨e, he, rfl⟩ := hfe
  have hemem : e ∈ recentGamesList highlight nickToKnownId playerIdToGroups
      gameIdToEvent dp games := List.mem_of_mem_take he
  have hne := hmain e hemem
  exact string_append_left_ne "https://hivegame.com/game/" e.game_id g.game_id hne

/-- Witness for C6 at a concrete input: a cache with one highlighted game
(`g1`, Alice of group `team`) and one game between strangers (`g2`);
nothing in the recent list or the feed refers to `g2`. -/
theorem recentGames_excludes_unhighlighted_witness :
    (∀ e ∈ recentGamesList ["team"]
        (fun n => if n = "alice" then some "player#a" else none)
        (fun pid => if pid = "player#a" then ["team"] else [])
        (fun _ => none) (fun _ => some 0)
        [⟨"g1", "Alice", "bob", GameStatus.finishedWinner "White", true, "t", none⟩,
         ⟨"g2", "xx", "yy", GameStatus.finishedDraw, false, "t", none⟩],
      e.game_id ≠ "g2") ∧
    (∀ fe ∈ (feedGET (fun _ => some 0) (fun _ => 2024) 0
        (recentGamesList ["team"]
          (fun n => if n = "alice" then some "player#a" else none)
          (fun pid => if pid = "player#a" then ["team"] else [])
          (fun _ => none) (fun _ => some 0)
          [⟨"g1", "Alice", "bob", GameStatus.finishedWinner "White", true, "t", none⟩,
           ⟨"g2", "xx", "yy", GameStatus.finishedDraw, false, "t", none⟩])).entries,
      fe.link ≠ "https://hivegame.com/game/" ++ "g2") :=
  recentGames_excludes_unhighlighted ["team"]
    (fun n => if n = "alice" then some "player#a" else none)
    (fun pid => if pid = "player#a" then ["team"] else [])
    (fun _ => none) (fun _ => some 0) (fun _ => 2024) 0
    [⟨"g1", "Alice", "bob", GameStatus.finishedWinner "White", true, "t", none⟩,
     ⟨"g2", "xx", "yy", GameStatus.finishedDraw, false, "t", none⟩]
    ⟨"g2", "xx", "yy", GameStatus.finishedDraw, false, "t", none⟩
    (by decide) (by decide) (by decide) (by decide)

/-- C7: the feed emits at most 50 entries, taken from the front of the
timestamp-descending recent-games list; its `updated` timestamp is the
newest included game's parsed timestamp, or the current time when there
are no games; and (given the loader's descending sort) every included
game's sort key dominates every excluded one's. -/
theorem feed_caps_and_updated (dp : String → Option Int) (yearOf : Int → Int)
    (now : Int) (recent : List RecentHiveGame)
    (hsorted : recent.Pairwise (recentLe dp)) :
    (feedGET dp yearOf now recent).entries.length ≤ 50 ∧
    (feedGET dp yearOf now recent).entries =
      (recent.map (mkFeedEntry dp yearOf now)).take 50 ∧
    (recent = [] → (feedGET dp yearOf now recent).updated = now) ∧
    (∀ g₀, recent.head? = some g₀ →
      (feedGET dp yearOf now recent).updated = parseTimestamp dp now g₀.timestamp ∧
      mkFeedEntry dp yearOf now g₀ ∈ (feedGET dp yearOf now recent).entries) ∧
    (∀ a ∈ recent.take 50, ∀ b ∈ recent.drop 50,
      parse0 dp b.timestamp ≤ parse0 dp a.timestamp) := by
  refine ⟨?_, ?_, ?_, ?_, ?_⟩
  · simp only [feedGET, MAX_ENTRIES, List.length_map, List.length_take]
    omega
  · simp only [feedGET, MAX_ENTRIES, List.map_take]
  · intro h
    subst h
    rfl
  · intro g₀ hg₀
    cases recent with
    | nil => simp at hg₀
    | cons a t =>
      simp only [List.head?_cons, Option.some.injEq] at hg₀
      subst hg₀
      constructor
      · rfl
      · simp only [feedGET, MAX_ENTRIES, List.take_succ_cons, List.map_cons]
        exact List.mem_cons_self _ _
  · intro a ha b hb
    have hsplit : recent = recent.take 50 ++ recent.drop 50 :=
      (List.take_append_drop 50 recent).symm
    rw [hsplit, List.pairwise_append] at hsorted
    exact hsorted.2.2 a ha b hb

/-- Witness for C7 at a concrete input: two games sorted descending by
parsed timestamp. -/
theorem feed_caps_and_updated_witness :
    (feedGET (fun s => if s = "t1" then some 10 else some 5) (fun _ => 2024) 99
      [⟨"g1", "w1", "b1", true, true, GameResult.white, true, "t1", none⟩,
       ⟨"g2", "w2", "b2", true, true, GameResult.draw, false, "t2", none⟩]).entries.length ≤ 50 ∧
    (feedGET (fun s => if s = "t1" then some 10 else some 5) (fun _ => 2024) 99
      [⟨"g1", "w1", "b1", true, true, GameResult.white, true, "t1", none⟩,
       ⟨"g2", "w2", "b2", true, true, GameResult.draw, false, "t2", none⟩]).entries =
      ([⟨"g1", "w1", "b1", true, true, GameResult.white, true, "t1", none⟩,
        (⟨"g2", "w2", "b2", true, true, GameResult.draw, false, "t2", none⟩ : RecentHiveGame)].map
        (mkFeedEntry (fun s => if s = "t1" then some 10 else some 5) (fun _ => 2024) 99)).take 50 ∧
    ([(⟨"g1", "w1", "b1", true, true, GameResult.white, true, "t1", none⟩ : RecentHiveGame),
      ⟨"g2", "w2", "b2", true, true, GameResult.draw, false, "t2", none⟩] = [] →
      (feedGET (fun s => if s = "t1" then some 10 else some 5) (fun _ => 2024) 99
        [⟨"g1", "w1", "b1", true, true, GameResult.white, true, "t1", none⟩,
         ⟨"g2", "w2", "b2", true, true, GameResult.draw, false, "t2", none⟩]).updated = 99) ∧
    (∀ g₀, ([(⟨"g1", "w1", "b1", true, true, GameResult.white, true, "t1", none⟩ : RecentHiveGame),
        ⟨"g2", "w2", "b2", true, true, GameResult.draw, false, "t2", none⟩] : List RecentHiveGame).head? = some g₀ →
      (feedGET (fun s => if s = "t1" then some 10 else some 5) (fun _ => 2024) 99
        [⟨"g1", "w1", "b1", true, true, GameResult.white, true, "t1", none⟩,
         ⟨"g2", "w2", "b2", true, true, GameResult.draw, false, "t2", none⟩]).updated =
        parseTimestamp (fun s => if s = "t1" then some 10 else some 5) 99 g₀.timestamp ∧
      mkFeedEntry (fun s => if s = "t1" then some 10 else some 5) (fun _ => 2024) 99 g₀ ∈
        (feedGET (fun s => if s = "t1" then some 10 else some 5) (fun _ => 2024) 99
          [⟨"g1", "w1", "b1", true, true, GameResult.white, true, "t1", none⟩,
           ⟨"g2", "w2", "b2", true, true, GameResult.draw, false, "t2", none⟩]).entries) ∧
    (∀ a ∈ ([(⟨"g1", "w1", "b1", true, true, GameResult.white, true, "t1", none⟩ : RecentHiveGame),
        ⟨"g2", "w2", "b2", true, true, GameResult.draw, false, "t2", none⟩] : List RecentHiveGame).take 50,
      ∀ b ∈ ([(⟨"g1", "w1", "b1", true, true, GameResult.white, true, "t1", none⟩ : RecentHiveGame),
        ⟨"g2", "w2", "b2", true, true, GameResult.draw, false, "t2", none⟩] : List RecentHiveGame).drop 50,
      parse0 (fun s => if s = "t1" then some 10 else some 5) b.timestamp ≤
        parse0 (fun s => if s = "t1" then some 10 else some 5) a.timestamp) :=
  feed_caps_and_updated (fun s => if s = "t1" then some 10 else some 5)
    (fun _ => 2024) 99
    [⟨"g1", "w1", "b1", true, true, GameResult.white, true, "t1", none⟩,
     ⟨"g2", "w2", "b2", true, true, GameResult.draw, false, "t2", none⟩]
    (by decide)


/- C2: extractGameIdFromUrl (src/lib/hiveData.ts).  The platform URL parser
(the WHATWG algorithm behind new URL) is embedded for the fragment of inputs
this program meets: scheme validation, special-scheme slash handling, authority
parsing (userinfo, host lowercasing, digit port), backslash-to-slash conversion
and dot-segment normalization of the path, and query/fragment stripping.
extractGameIdFromUrl itself is translated line by line from the source:
hostname check, split("/").filter(Boolean), segment-count and first-segment
checks, and the final `segments[1] || null`. -/

/-- Splitting a character list at a separator character, mirroring
JavaScript's String.prototype.split with a single-character separator:
the result always has one more part than there are separators. -/
def splitChar (sep : Char) : List Char → List (List Char)
  | [] => [[]]
  | c :: cs =>
    if c = sep then [] :: splitChar sep cs
    else
      match splitChar sep cs with
      | [] => [[c]]
      | p :: ps => (c :: p) :: ps

def isAsciiAlpha (c : Char) : Bool :=
  (65 ≤ c.toNat && c.toNat ≤ 90) || (97 ≤ c.toNat && c.toNat ≤ 122)

def isAsciiDigit (c : Char) : Bool := 48 ≤ c.toNat && c.toNat ≤ 57

def isSchemeChar (c : Char) : Bool :=
  isAsciiAlpha c || isAsciiDigit c || c = '+' || c = '-' || c = '.'

def specialSchemes : List (List Char) :=
  ["http".data, "https".data, "ws".data, "wss".data, "ftp".data, "file".data]

/-- Host parsing from the authority component: strip userinfo up to the
last @, split off a :port (digits only), lowercase the host. -/
def parseAuthority (authority : List Char) (allowEmptyHost : Bool) :
    Option (List Char) :=
  let hostPort :=
    if authority.contains '@' then
      (authority.reverse.takeWhile (fun c => !(c = '@'))).reverse
    else authority
  let host := hostPort.takeWhile (fun c => !(c = ':'))
  let port := hostPort.dropWhile (fun c => !(c = ':'))
  let portOk :=
    match port with
    | [] => true
    | _ :: ds => ds.all isAsciiDigit
  if !portOk then none
  else if host = [] && !allowEmptyHost then none
  else some (host.map lowerChar)

/-- Dot-segment normalization of a path that starts with a slash:
".." pops, "." is dropped, a trailing dot segment leaves a trailing slash. -/
def normalizePath (l : List Char) : List Char :=
  match splitChar '/' l with
  | [] => l
  | _ :: rest =>
    let stack := rest.foldl (fun st seg =>
      if seg = ['.'] then st
      else if seg = ['.', '.'] then st.dropLast
      else st ++ [seg]) []
    let stack' :=
      if rest.getLast? = some ['.'] ∨ rest.getLast? = some ['.', '.'] then
        stack ++ [[]]
      else stack
    '/' :: List.intercalate ['/'] stack'

def parseURL (cs : List Char) : Option (List Char × List Char) :=
  let scheme := cs.takeWhile (fun c => !(c = ':'))
  match cs.dropWhile (fun c => !(c = ':')) with
  | [] => none
  | _ :: rest =>
    match scheme with
    | [] => none
    | c0 :: srest =>
      if !isAsciiAlpha c0 then none
      else if !srest.all isSchemeChar then none
      else
        let schemeL := (c0 :: srest).map lowerChar
        if schemeL ∈ specialSchemes then
          let rest₁ := rest.dropWhile (fun c => c = '/' || c = '\\')
          let authEnd : Char → Bool :=
            fun c => c = '/' || c = '\\' || c = '?' || c = '#'
          let authority := rest₁.takeWhile (fun c => !(authEnd c))
          let after := rest₁.dropWhile (fun c => !(authEnd c))
          let rawPath :=
            (after.takeWhile (fun c => !(c = '?' || c = '#'))).map
              (fun c => if c = '\\' then '/' else c)
          match parseAuthority authority (schemeL = "file".data) with
          | none => none
          | some host =>
            some (host, if rawPath = [] then ['/'] else normalizePath rawPath)
        else
          match rest with
          | '/' :: '/' :: rest₂ =>
            let authEnd : Char → Bool := fun c => c = '/' || c = '?' || c = '#'
            let authority := rest₂.takeWhile (fun c => !(authEnd c))
            let after := rest₂.dropWhile (fun c => !(authEnd c))
            let rawPath := after.takeWhile (fun c => !(c = '?' || c = '#'))
            match parseAuthority authority true with
            | none => none
            | some host =>
              some (host, if rawPath = [] then [] else normalizePath rawPath)
          | _ =>
            some ([], rest.takeWhile (fun c => !(c = '?' || c = '#')))

def extractGameIdFromUrl (url : String) : Option String :=
  if url = "" then none
  else
    match parseURL url.data with
    | none => none
    | some (hostname, pathname) =>
      if hostname ≠ "hivegame.com".data then none
      else
        let segments := (splitChar '/' pathname).filter (fun s => !s.isEmpty)
        if segments.length ≠ 2 then none
        else if segments.getD 0 [] ≠ "game".data then none
        else if (segments.getD 1 []).isEmpty then none
        else some (String.mk (segments.getD 1 []))

def urlPathSafe (c : Char) : Bool :=
  33 ≤ c.toNat && c.toNat ≤ 126 &&
    !(c.toNat ∈ [34, 35, 37, 47, 60, 62, 63, 92, 96, 123, 125])

theorem takeWhile_of_all (p : Char → Bool) :
    ∀ l : List Char, (∀ c ∈ l, p c = true) → l.takeWhile p = l := by
  intro l h
  induction l with
  | nil => rfl
  | cons c cs ih =>
    rw [List.takeWhile_cons, if_pos (h c (List.mem_cons_self c cs))]
    exact congrArg (c :: ·) (ih fun x hx => h x (List.mem_cons_of_mem c hx))

theorem map_slash_id (l : List Char) (h : ∀ c ∈ l, ¬(c = '\\')) :
    l.map (fun c => if c = '\\' then '/' else c) = l := by
  induction l with
  | nil => rfl
  | cons c cs ih =>
    rw [List.map_cons, if_neg (h c (List.mem_cons_self c cs))]
    exact congrArg (c :: ·) (ih fun x hx => h x (List.mem_cons_of_mem c hx))

theorem splitChar_no_sep (sep : Char) (l : List Char)
    (h : ∀ c ∈ l, ¬(c = sep)) : splitChar sep l = [l] := by
  induction l with
  | nil => rfl
  | cons c cs ih =>
    rw [splitChar, if_neg (h c (List.mem_cons_self c cs)),
      ih fun x hx => h x (List.mem_cons_of_mem c hx)]

theorem urlPathSafe_not (c x : Char) (hx : urlPathSafe x = false)
    (h : urlPathSafe c = true) : ¬(c = x) := by
  intro he
  rw [he, hx] at h
  exact Bool.false_ne_true h

theorem normalizePath_game (tl : List Char)
    (hsp : splitChar '/' tl = [tl])
    (hd1 : ¬(tl = ['.'])) (hd2 : ¬(tl = ['.', '.'])) :
    normalizePath ("/game/".data ++ tl) = "/game/".data ++ tl := by
  have hsplit : splitChar '/' ("/game/".data ++ tl) =
      [] :: "game".data :: splitChar '/' tl := rfl
  rw [normalizePath, hsplit, hsp]
  simp only [List.foldl_cons, List.foldl_nil]
  rw [if_neg (show ¬("game".data = ['.']) from by decide),
    if_neg (show ¬("game".data = ['.', '.']) from by decide),
    if_neg hd1, if_neg hd2,
    List.getLast?_cons_cons, List.getLast?_singleton]
  rw [if_neg (show ¬(some tl = some ['.'] ∨ some tl = some ['.', '.']) from by
    rintro (h | h)
    · exact hd1 (Option.some.inj h)
    · exact hd2 (Option.some.inj h))]
  have hic : List.intercalate ['/'] ([] ++ ["game".data] ++ [tl]) =
      "game".data ++ '/' :: (tl ++ []) := rfl
  rw [hic, List.append_nil]
  rfl

/-- A game URL built from a slash-free, dot-free, path-safe token parses to
host hivegame.com with pathname /game/<token>. -/
theorem parseURL_gameUrl (tl : List Char)
    (hq : tl.takeWhile (fun c => !(c = '?' || c = '#')) = tl)
    (hbs : tl.map (fun c => if c = '\\' then '/' else c) = tl)
    (hsp : splitChar '/' tl = [tl])
    (hd1 : ¬(tl = ['.'])) (hd2 : ¬(tl = ['.', '.'])) :
    parseURL ("https://hivegame.com/game/".data ++ tl) =
      some ("hivegame.com".data, "/game/".data ++ tl) := by
  have hred : parseURL ("https://hivegame.com/game/".data ++ tl) =
      some ("hivegame.com".data,
        normalizePath ("/game/".data ++
          (tl.takeWhile (fun c => !(c = '?' || c = '#'))).map
            (fun c => if c = '\\' then '/' else c))) := rfl
  rw [hred, hq, hbs, normalizePath_game tl hsp hd1 hd2]

/-- Forward direction of C2 on the canonical URL shape. -/
theorem extract_token (t : String)
    (hne : t ≠ "") (hd1 : t ≠ ".") (hd2 : t ≠ "..")
    (hsafe : ∀ c ∈ t.data, urlPathSafe c = true) :
    extractGameIdFromUrl ("https://hivegame.com/game/" ++ t) = some t := by
  have hdne : t.data ≠ [] := fun h => hne (congrArg String.mk h)
  have htd1 : ¬(t.data = ['.']) := fun h => hd1 (congrArg String.mk h)
  have htd2 : ¬(t.data = ['.', '.']) := fun h => hd2 (congrArg String.mk h)
  have hq : t.data.takeWhile (fun c => !(c = '?' || c = '#')) = t.data := by
    refine takeWhile_of_all _ _ fun c hc => ?_
    have h1 := urlPathSafe_not c '?' (by decide) (hsafe c hc)
    have h2 := urlPathSafe_not c '#' (by decide) (hsafe c hc)
    simp [h1, h2]
  have hbs : t.data.map (fun c => if c = '\\' then '/' else c) = t.data := by
    refine map_slash_id _ fun c hc => ?_
    exact urlPathSafe_not c '\\' (by decide) (hsafe c hc)
  have hsp : splitChar '/' t.data = [t.data] := by
    refine splitChar_no_sep _ _ fun c hc => ?_
    exact urlPathSafe_not c '/' (by decide) (hsafe c hc)
  have hne' : ¬("https://hivegame.com/game/" ++ t = "") := by
    intro h
    have := congrArg String.data h
    rw [String.data_append] at this
    simp at this
  have hpars := parseURL_gameUrl t.data hq hbs hsp htd1 htd2
  have hie : t.data.isEmpty = false := by
    cases h : t.data with
    | nil => exact absurd h hdne
    | cons a l => rfl
  have hseg : (splitChar '/' ("/game/".data ++ t.data)).filter
      (fun s => !s.isEmpty) = ["game".data, t.data] := by
    have h1 : splitChar '/' ("/game/".data ++ t.data) =
        [] :: "game".data :: splitChar '/' t.data := rfl
    rw [h1, hsp, List.filter_cons, List.filter_cons, List.filter_cons,
      List.filter_nil]
    rw [if_neg (by decide), if_pos (by decide),
      if_pos (by rw [hie]; rfl)]
  simp only [extractGameIdFromUrl, if_neg hne', String.data_append, hpars]
  simp only [hseg]
  rw [if_neg (show ¬("hivegame.com".data ≠ "hivegame.com".data) from
    fun hc => hc rfl)]
  rw [if_neg (show ¬(["game".data, t.data].length ≠ 2) from fun hc => hc rfl)]
  rw [if_neg (show ¬(["game".data, t.data].getD 0 [] ≠ "game".data) from
    fun hc => hc rfl)]
  rw [show (["game".data, t.data].getD 1 []) = t.data from rfl, hie]
  rw [if_neg (show ¬(false = true) from Bool.false_ne_true)]

/-- Reverse direction of C2: a non-null extraction forces host hivegame.com
and exactly two nonempty path segments headed by "game". -/
theorem extract_only_hive (s : String)
    (h : extractGameIdFromUrl s ≠ none) :
    ∃ host path, parseURL s.data = some (host, path) ∧
      host = "hivegame.com".data ∧
      ((splitChar '/' path).filter (fun seg => !seg.isEmpty)).length = 2 ∧
      ((splitChar '/' path).filter (fun seg => !seg.isEmpty)).getD 0 [] =
        "game".data := by
  by_cases h0 : s = ""
  · rw [extractGameIdFromUrl, if_pos h0] at h
    exact absurd rfl h
  cases hp : parseURL s.data with
  | none =>
    rw [extractGameIdFromUrl, if_neg h0] at h
    simp only [hp] at h
    exact absurd rfl h
  | some hostpath =>
    obtain ⟨host, path⟩ := hostpath
    rw [extractGameIdFromUrl, if_neg h0] at h
    simp only [hp] at h
    by_cases hh : host = "hivegame.com".data
    · rw [if_neg (show ¬(host ≠ "hivegame.com".data) from fun hc => hc hh)] at h
      by_cases hl : ((splitChar '/' path).filter
          (fun seg => !seg.isEmpty)).length = 2
      · rw [if_neg (show ¬(((splitChar '/' path).filter
            (fun seg => !seg.isEmpty)).length ≠ 2) from fun hc => hc hl)] at h
        by_cases hg : ((splitChar '/' path).filter
            (fun seg => !seg.isEmpty)).getD 0 [] = "game".data
        · exact ⟨host, path, rfl, hh, hl, hg⟩
        · rw [if_pos hg] at h
          exact absurd rfl h
      · rw [if_pos hl] at h
        exact absurd rfl h
    · rw [if_pos hh] at h
      exact absurd rfl h

/-- C2: for every URL of the form https://hivegame.com/game/<token> with
<token> nonempty, not a dot segment, and made of path-safe characters (no
slash, backslash, query/fragment delimiters, percent, controls, or characters
the parser percent-encodes), extraction returns exactly <token>; any non-null
result requires the parsed host to be hivegame.com and the normalized path to
have exactly two nonempty segments headed by "game"; and the spec's concrete
negative examples (wrong segment count, empty string, unparsable string,
wrong host) all return none. -/
theorem extractGameIdFromUrl_spec (t : String)
    (hne : t ≠ "") (hd1 : t ≠ ".") (hd2 : t ≠ "..")
    (hsafe : ∀ c ∈ t.data, urlPathSafe c = true) :
    extractGameIdFromUrl ("https://hivegame.com/game/" ++ t) = some t ∧
    (∀ s : String, extractGameIdFromUrl s ≠ none →
      ∃ host path, parseURL s.data = some (host, path) ∧
        host = "hivegame.com".data ∧
        ((splitChar '/' path).filter (fun seg => !seg.isEmpty)).length = 2 ∧
        ((splitChar '/' path).filter (fun seg => !seg.isEmpty)).getD 0 [] =
          "game".data) ∧
    extractGameIdFromUrl "https://hivegame.com/ABC123" = none ∧
    extractGameIdFromUrl "" = none ∧
    extractGameIdFromUrl "not-a-url" = none ∧
    extractGameIdFromUrl "https://example.com/game/whatever" = none :=
  ⟨extract_token t hne hd1 hd2 hsafe,
    fun s h => extract_only_hive s h,
    by decide, by decide, by decide, by decide⟩

/-- Witness for C2 at the spec's concrete token Ldb_urJrLZ1-. -/
theorem extractGameIdFromUrl_spec_witness :
    extractGameIdFromUrl ("https://hivegame.com/game/" ++ "Ldb_urJrLZ1-") =
      some "Ldb_urJrLZ1-" :=
  (extractGameIdFromUrl_spec "Ldb_urJrLZ1-" (by decide) (by decide) (by decide)
    (by decide)).1

/-- Counterexample to C2 as stated: the claim demands null for every input
not literally of the form https://hivegame.com/game/<token> with no extra
path segments, yet an explicit port (the string does not even begin with the
prefix https://hivegame.com/game/, witnessed by its first 26 characters) and
a trailing slash both still yield a game id, because hostname comparison
ignores the port and filter(Boolean) drops the empty trailing segment. -/
theorem extractGameIdFromUrl_counterexample :
    extractGameIdFromUrl "https://hivegame.com:8080/game/x" = some "x" ∧
    List.take 26 "https://hivegame.com:8080/game/x".data ≠
      "https://hivegame.com/game/".data ∧
    extractGameIdFromUrl ("https://hivegame.com/game/" ++ "x/") = some "x" ∧
    ("x" : String) ≠ "x/" :=
  ⟨by decide, by decide, by decide, by decide⟩
